import Mathlib

/-!
# tinytiles: the style-driven filter engine

A shallow embedding of `cmd/style.go`, `cmd/helpers.go` and the filtering parts of
`cmd/root.go`.

Conventions of the embedding.

* Go strings are Lean `String`s.  `strings.HasPrefix` is a prefix test on the
  character sequence; for the ASCII prefixes used by the program this agrees with
  the byte-wise test of Go.
* A Go `map[string]V` is the list of its entries (`GoMap V`).  Go never stores a
  key twice; theorems that depend on it assume the keys to be pairwise distinct.
  Go iterates a map in an unspecified order; the model iterates in list order, and
  every statement below is either independent of that order or states the order
  it uses.
* Package-level variables are the fields of `Globals`, passed explicitly.
* A Go call that can fail yields `Except Failure α`: `Failure.error` is a returned
  `error` value, `Failure.fatal` is `log.Fatal` (the process exits), and
  `Failure.panic` is a run-time panic.
* Library code (`regexp`, `encoding/json`, `orb`, `mvt`) is not part of the
  repository; what the program needs of it is modelled next to its first use.
-/

namespace TinyTiles

/-- How a Go call fails: a returned error value, `log.Fatal`, or a run-time panic. -/
inductive Failure where
  | error (msg : String)
  | fatal (msg : String)
  | panic (msg : String)
  deriving DecidableEq, Repr

/-- Entries of a Go `map[string]V`. -/
abbrev GoMap (V : Type) := List (String × V)

/-- Keys of a map, in the iteration order of the model. -/
def GoMap.keys {V : Type} (m : GoMap V) : List String := m.map Prod.fst

/-- Map read `m[k]` with the comma-ok form. -/
def GoMap.get? {V : Type} : GoMap V → String → Option V
  | [], _ => none
  | (k', v) :: rest, k => if k' = k then some v else GoMap.get? rest k

/-- Map write `m[k] = v`: overwrite the entry of `k`, or add one. -/
def GoMap.set {V : Type} : GoMap V → String → V → GoMap V
  | [], k, v => [(k, v)]
  | (k', v') :: rest, k, v =>
    if k' = k then (k, v) :: rest else (k', v') :: GoMap.set rest k v

/-- Builtin `delete(m, k)`. -/
def GoMap.delete {V : Type} : GoMap V → String → GoMap V
  | [], _ => []
  | (k', v') :: rest, k =>
    if k' = k then GoMap.delete rest k else (k', v') :: GoMap.delete rest k

/-- Read of a `map[string]bool`: the zero value `false` for a missing key. -/
def GoMap.getBool (m : GoMap Bool) (k : String) : Bool := (m.get? k).getD false

/-- The library call `strings.HasPrefix(s, pre)`. -/
def strings.HasPrefix (s pre : String) : Bool := pre.toList.isPrefixOf s.toList

/-- The `regexp` package as the program sees it: compiling a pattern either fails
(`none`) or gives a matcher.  Whether a pattern compiles does not depend on the
string it is matched against. -/
abbrev RegexpEngine := String → Option (String → Bool)

/-- The library call `regexp.MatchString(pattern, s)`, returning `(matched, err)`. -/
def regexp.MatchString (re : RegexpEngine) (pattern s : String) : Bool × Option String :=
  match re pattern with
  | none => (false, some ("error parsing regexp: " ++ pattern))
  | some m => (m s, none)

/-- The package-level variables of `cmd/root.go` that the filter engine uses. -/
structure Globals where
  attributes : List String
  sourceLayers : List String
  keepAttributes : String
  keepLayers : String
  gzipped : Bool
  removedAttributesMap : GoMap Bool
  removedLayersMap : GoMap Bool
  deriving DecidableEq, Repr

/-- The loop `for _, value := range xs { if value == x { return true } }; return false`. -/
def rangeContains : List String → String → Bool
  | [], _ => false
  | value :: rest, x => if value = x then true else rangeContains rest x

/-- Source function `containsSourceLayer` of `cmd/root.go`. -/
def containsSourceLayer (re : RegexpEngine) (g : Globals) (layerName : String) :
    Except Failure Bool :=
  if g.keepLayers ≠ "" then
    match regexp.MatchString re g.keepLayers layerName with
    | (true, _) => .ok true
    | (false, some err) => .error (.fatal err)
    | (false, none) => .ok (rangeContains g.sourceLayers layerName)
  else
    .ok (rangeContains g.sourceLayers layerName)

/-- Source function `containsAttr` of `cmd/root.go`. -/
def containsAttr (re : RegexpEngine) (g : Globals) (attr : String) :
    Except Failure Bool :=
  if strings.HasPrefix attr "name" then .ok true
  else if strings.HasPrefix attr "ref" then .ok true
  else if g.keepAttributes ≠ "" then
    match regexp.MatchString re g.keepAttributes attr with
    | (true, _) => .ok true
    | (false, some err) => .error (.fatal err)
    | (false, none) => .ok (rangeContains g.attributes attr)
  else
    .ok (rangeContains g.attributes attr)

/-- A small regular-expression engine used to instantiate the theorems.  It agrees
with Go on the patterns it is used with: `(` does not compile, `^w$` matches exactly
the string `w`, and a pattern of plain letters matches the strings that contain it. -/
def sampleRegexp : RegexpEngine := fun p =>
  if p = "(" then none
  else some (fun s =>
    if strings.HasPrefix p "^" then decide (p = "^" ++ s ++ "$")
    else s.toList.tails.any (fun t => p.toList.isPrefixOf t))

/-- The override is unset, or it is a pattern that compiles. -/
def overrideOk (re : RegexpEngine) (pattern : String) : Prop :=
  pattern = "" ∨ (re pattern).isSome = true

/-- The override is set and matches `s`. -/
def overrideMatches (re : RegexpEngine) (pattern s : String) : Prop :=
  pattern ≠ "" ∧ (re pattern).map (fun m => m s) = some true

/-! ## JSON documents and the filter parser (`cmd/style.go`) -/

/-- A JSON number literal of the value `(-1)^neg * mantissa * 10^exponent`.  Every
number has a literal of the form `1e999`, `-15e-1`, ..., and the texts are taken to
write their numbers so. -/
structure JNumber where
  neg : Bool
  mantissa : Nat
  exponent : Int
  deriving DecidableEq, Repr

/-- The literal as written in the text. -/
def JNumber.literal (n : JNumber) : String :=
  (if n.neg then "-" else "") ++ toString n.mantissa ++ "e" ++ toString n.exponent

/-- The library call `strconv.ParseFloat(lit, 64)` reports a range error exactly when
the literal rounds to an infinity, that is when its magnitude is at least
`2^1024 - 2^970` (half an ulp above the largest float64).  `fitsFloat64` is the
absence of that error. -/
def JNumber.fitsFloat64 (n : JNumber) : Bool :=
  match n.exponent with
  | Int.ofNat e => decide (n.mantissa * 10 ^ e < 2 ^ 1024 - 2 ^ 970)
  | Int.negSucc e => decide (n.mantissa < (2 ^ 1024 - 2 ^ 970) * 10 ^ (e + 1))

/-- A JSON text that follows the grammar, given by its syntax tree.  String values
and member names are the decoded strings. -/
inductive Json where
  | null
  | bool (b : Bool)
  | number (n : JNumber)
  | string (s : String)
  | array (elems : List Json)
  | object (members : List (String × Json))
  deriving Repr

/-- The constant `maxNestingDepth` of `encoding/json`: the scanner rejects a text in
which more than this many arrays and objects are open at once. -/
def maxNestingDepth : Nat := 10000

mutual
/-- The largest number of arrays and objects open at once in a text. -/
def Json.depth : Json → Nat
  | .null => 0
  | .bool _ => 0
  | .number _ => 0
  | .string _ => 0
  | .array elems => 1 + Json.depthList elems
  | .object members => 1 + Json.depthMembers members
/-- The largest depth among the elements of an array. -/
def Json.depthList : List Json → Nat
  | [] => 0
  | v :: rest => max (Json.depth v) (Json.depthList rest)
/-- The largest depth among the member values of an object. -/
def Json.depthMembers : List (String × Json) → Nat
  | [] => 0
  | (_, v) :: rest => max (Json.depth v) (Json.depthMembers rest)
end

mutual
/-- The opening character at which the scanner gives up when `k` more arrays or
objects may be opened: the first one, in the order of the text, that is nested
deeper.  `none` when there is none. -/
def Json.firstTooDeep : Nat → Json → Option String
  | _, .null => none
  | _, .bool _ => none
  | _, .number _ => none
  | _, .string _ => none
  | 0, .array _ => some "["
  | k + 1, .array elems => Json.firstTooDeepList k elems
  | 0, .object _ => some "\x7b"
  | k + 1, .object members => Json.firstTooDeepMembers k members
/-- The same for the elements of an array. -/
def Json.firstTooDeepList : Nat → List Json → Option String
  | _, [] => none
  | k, v :: rest =>
    match Json.firstTooDeep k v with
    | some c => some c
    | none => Json.firstTooDeepList k rest
/-- The same for the member values of an object. -/
def Json.firstTooDeepMembers : Nat → List (String × Json) → Option String
  | _, [] => none
  | k, (_, v) :: rest =>
    match Json.firstTooDeep k v with
    | some c => some c
    | none => Json.firstTooDeepMembers k rest
end

/-- The syntax error of the scanner at the opening character `c` of an array or
object that is nested too deep. -/
def maxDepthError (c : String) : Failure :=
  .error ("invalid character '" ++ c ++ "' exceeded max depth")

/-- Every call of `json.Unmarshal` starts with `checkValid`, which scans the
whole text.  A text that follows the grammar fails it exactly when it is nested
deeper than `maxNestingDepth`; `none` is success. -/
def checkValid (data : Json) : Option Failure :=
  if data.depth ≤ maxNestingDepth then none
  else some (maxDepthError ((Json.firstTooDeep maxNestingDepth data).getD "["))

mutual
/-- The first number literal, in the order of the text, that does not fit a
float64.  Decoding into `interface{}` stores every number as a float64 and keeps
the error of the first literal that does not fit (`convertNumber`, `saveError`). -/
def Json.firstBadNumber : Json → Option JNumber
  | .null => none
  | .bool _ => none
  | .number n => if n.fitsFloat64 then none else some n
  | .string _ => none
  | .array elems => Json.firstBadNumberList elems
  | .object members => Json.firstBadNumberMembers members
/-- The same for the elements of an array. -/
def Json.firstBadNumberList : List Json → Option JNumber
  | [] => none
  | v :: rest =>
    match Json.firstBadNumber v with
    | some n => some n
    | none => Json.firstBadNumberList rest
/-- The same for the member values of an object. -/
def Json.firstBadNumberMembers : List (String × Json) → Option JNumber
  | [] => none
  | (_, v) :: rest =>
    match Json.firstBadNumber v with
    | some n => some n
    | none => Json.firstBadNumberMembers rest
end

/-- Every number literal of the text fits a float64. -/
def Json.numbersFit (v : Json) : Bool := (Json.firstBadNumber v).isNone

/-- How the decoder names the kind of a value in a type error. -/
def Json.kind : Json → String
  | .null => "null"
  | .bool _ => "bool"
  | .number _ => "number"
  | .string _ => "string"
  | .array _ => "array"
  | .object _ => "object"

/-- The Go interface `Filter` with its two implementations; `nil` is the nil
interface value.  An operand of a comparison (`interface{}`) is represented by the
JSON text it was decoded from, which determines it. -/
inductive Filter where
  | nil
  | ComparisonFilter (Op : String) (Field : String) (Values : List Json)
  | LogicalFilter (Op : String) (Filters : List Filter)
  deriving Repr

/-- The first `case` list of the switch in `UnmarshalFilter`. -/
def comparisonOps : List String :=
  ["==", "!=", ">", "<", ">=", "<=", "in", "!in", "at", "!has", "index-of", "slice",
   "global-state", "get", "has", "length", "case", "match", "coalesce"]

/-- The second `case` list of the switch in `UnmarshalFilter`. -/
def logicalOps : List String := ["all", "any", "none"]

/-- The library call `json.Unmarshal(raw, &s)` for `var s string` (so `s` is empty
before the call): the text is validated, then a JSON string is stored, `null` leaves
`s` untouched without an error, and any other value is a type error. -/
def unmarshalString (raw : Json) : Except Failure String :=
  match checkValid raw with
  | some err => .error err
  | none =>
    match raw with
    | .string s => .ok s
    | .null => .ok ""
    | other => .error (.error ("json: cannot unmarshal " ++ other.kind ++
        " into Go value of type string"))

/-- The library call `json.Unmarshal(v, &val)` for `var val interface{}`: the text is
validated, then decoded; the only error of the decoding is that of a number literal
outside the float64 range. -/
def unmarshalValue (v : Json) : Except Failure Json :=
  match checkValid v with
  | some err => .error err
  | none =>
    match v.firstBadNumber with
    | some n => .error (.error ("json: cannot unmarshal number " ++ n.literal ++
        " into Go value of type float64"))
    | none => .ok v

/-- The loop over `raw[2:]` in `UnmarshalFilter`. -/
def unmarshalValues : List Json → Except Failure (List Json)
  | [] => .ok []
  | v :: rest =>
    match unmarshalValue v with
    | .error e => .error e
    | .ok val =>
      match unmarshalValues rest with
      | .error e => .error e
      | .ok values => .ok (val :: values)

/-- The error check after a `json.Unmarshal` of the text `data`: the error of the
validation is returned, otherwise the function goes on with `next`. -/
def whenValid {α : Type} (data : Json) (next : Except Failure α) : Except Failure α :=
  match checkValid data with
  | some err => .error err
  | none => next

mutual
/-- Source function `UnmarshalFilter` of `cmd/style.go`, on a JSON text that follows
the grammar.  The first `json.Unmarshal(data, &raw)` validates the text (nesting
depth), gives the elements of an array, leaves `raw` nil on `null`, and reports a
type error on any other value. -/
def UnmarshalFilter : Json → Except Failure Filter
  | .array [] => whenValid (.array []) (.error (.error "empty filter"))
  | .array (raw0 :: rest) =>
    whenValid (.array (raw0 :: rest))
      (match unmarshalString raw0 with
      | .error e => .error e
      | .ok op =>
        if op ∈ comparisonOps then
          match rest with
          | [] => .error (.panic "runtime error: index out of range [1] with length 1")
          | raw1 :: operands =>
            match unmarshalString raw1 with
            | .error e => .error e
            | .ok field =>
              match unmarshalValues operands with
              | .error e => .error e
              | .ok values => .ok (.ComparisonFilter op field values)
        else if op ∈ logicalOps then
          match UnmarshalFilterList rest with
          | .error e => .error e
          | .ok filters => .ok (.LogicalFilter op filters)
        else .error (.error ("unknown filter op: " ++ op)))
  | .null => whenValid .null (.error (.error "empty filter"))
  | other =>
    whenValid other (.error (.error ("json: cannot unmarshal " ++ other.kind ++
      " into Go value of type []json.RawMessage")))
/-- The loop over `raw[1:]` in the logical case of `UnmarshalFilter`. -/
def UnmarshalFilterList : List Json → Except Failure (List Filter)
  | [] => .ok []
  | sub :: rest =>
    match UnmarshalFilter sub with
    | .error e => .error e
    | .ok f =>
      match UnmarshalFilterList rest with
      | .error e => .error e
      | .ok filters => .ok (f :: filters)
end

mutual
/-- Source function `collectFields` of `cmd/style.go`; the map it writes to is
threaded through. -/
def collectFields : Filter → GoMap Unit → GoMap Unit
  | .nil, fields => fields
  | .ComparisonFilter _ Field _, fields =>
    if Field ≠ "" then fields.set Field () else fields
  | .LogicalFilter _ Filters, fields => collectFieldsList Filters fields
/-- The loop `for _, sub := range f.Filters { collectFields(sub, fields) }`. -/
def collectFieldsList : List Filter → GoMap Unit → GoMap Unit
  | [], fields => fields
  | sub :: rest, fields => collectFieldsList rest (collectFields sub fields)
end

/-- Source function `getFields` of `cmd/style.go`. -/
def getFields (f : Filter) : List String :=
  let seen := collectFields f []
  seen.keys.foldl (fun result k => if (seen.get? k).isSome then result ++ [k] else result) []

/-- Source function `uniqueSlice` of `cmd/helpers.go`, the loop with its two
variables `seen` and `result`. -/
def uniqueSliceLoop : List String → GoMap Bool → List String → List String
  | [], _, result => result
  | value :: rest, seen, result =>
    if !seen.getBool value then
      uniqueSliceLoop rest (seen.set value true) (result ++ [value])
    else uniqueSliceLoop rest seen result

/-- Source function `uniqueSlice` of `cmd/helpers.go`. -/
def uniqueSlice (slice : List String) : List String := uniqueSliceLoop slice [] []

/-- Source function `mapKeys` of `cmd/helpers.go` (in the iteration order of the model). -/
def mapKeys (m : GoMap Bool) : List String :=
  m.foldl (fun keys kv => keys ++ [kv.1]) []

/-! ## The style document -/

/-- Source type `Layer` of `cmd/style.go`. -/
structure Layer where
  Id : String
  Filter : Filter
  SourceLayer : String
  deriving Repr

/-- Source type `Style` of `cmd/style.go`. -/
structure Style where
  Layers : List Layer
  deriving Repr

/-- One element of the `layers` array of a style document, as the generic decoder
fills the local `aux` of `Layer.UnmarshalJSON`: the two strings, and the raw text
of `filter` (`none` when the member is absent, so that `aux.Filter == nil`).  The
layer object has no member nested deeper than its filter. -/
structure LayerDoc where
  Id : String
  SourceLayer : String
  Filter : Option Json
  deriving Repr

/-- Nesting depth of the text of a layer object. -/
def LayerDoc.depth (data : LayerDoc) : Nat :=
  match data.Filter with
  | none => 1
  | some raw => 1 + raw.depth

/-- Nesting depth of the text of a style document with the given layers: the
document, its `layers` array, and the layer objects. -/
def styleDepth : List LayerDoc → Nat
  | [] => 2
  | d :: rest => max (2 + d.depth) (styleDepth rest)

/-- The character at which the scanner gives up in a style document nested too
deep: it lies in the filter of the first layer that is too deep, three levels down. -/
def styleTooDeepChar : List LayerDoc → String
  | [] => "["
  | d :: rest =>
    match d.Filter.bind (Json.firstTooDeep (maxNestingDepth - 3)) with
    | some c => c
    | none => styleTooDeepChar rest

/-- Source method `(*Layer).UnmarshalJSON` of `cmd/style.go` on a zero receiver: the
receiver after the call, and the error returned (or the panic raised).  The call
`json.Unmarshal(data, aux)` validates the text of the layer and leaves the receiver
untouched when that fails.  Otherwise `Id` and `SourceLayer` are written through the
embedded alias pointer before the filter is parsed, so they are set even when the
filter is rejected. -/
def Layer.UnmarshalJSON (data : LayerDoc) : Layer × Option Failure :=
  if data.depth ≤ maxNestingDepth then
    let r : Layer := { Id := data.Id, Filter := .nil, SourceLayer := data.SourceLayer }
    match data.Filter with
    | none => (r, none)
    | some raw =>
      match UnmarshalFilter raw with
      | .error e => (r, some e)
      | .ok filter => ({ r with Filter := filter }, none)
  else ({ Id := "", Filter := .nil, SourceLayer := "" },
    some (maxDepthError
      ((data.Filter.bind (Json.firstTooDeep (maxNestingDepth - 1))).getD "[")))

/-- The library call `json.Unmarshal(byteValue, &styles)` on a document whose
`layers` member is the given array: the decoder extends the slice by one element,
calls `UnmarshalJSON` on it, and stops at the first error, which it returns; the
elements decoded so far stay in `styles`. -/
def unmarshalLayers : List LayerDoc → List Layer × Option Failure
  | [] => ([], none)
  | d :: rest =>
    match Layer.UnmarshalJSON d with
    | (r, some e) => ([r], some e)
    | (r, none) => ((r :: (unmarshalLayers rest).1), (unmarshalLayers rest).2)

/-- The value of `styles` and the error after `json.Unmarshal(byteValue, &styles)`.
The call validates the whole text first and leaves `styles` untouched when that
fails. -/
def unmarshalStyle (doc : List LayerDoc) : Style × Option Failure :=
  if styleDepth doc ≤ maxNestingDepth then
    ({ Layers := (unmarshalLayers doc).1 }, (unmarshalLayers doc).2)
  else ({ Layers := [] }, some (maxDepthError (styleTooDeepChar doc)))

/-- Lines 107-114 of `ProcessTiles`: collect the layers and attributes in use. -/
def collectStyle (g : Globals) (styles : Style) : Globals :=
  let g1 := styles.Layers.foldl (fun (acc : Globals) layer =>
    { acc with
      sourceLayers := acc.sourceLayers ++ [layer.SourceLayer]
      attributes := acc.attributes ++ getFields layer.Filter }) g
  { g1 with attributes := uniqueSlice g1.attributes }

/-! ## Tiles -/

/-- The library type `geojson.Feature`: geometry of type `G`, property values of type `V`. -/
structure geojson.Feature (G V : Type) where
  Geometry : G
  Properties : GoMap V
  deriving DecidableEq, Repr

/-- The library type `mvt.Layer` (name and features). -/
structure mvt.Layer (G V : Type) where
  Name : String
  Features : List (geojson.Feature G V)
  deriving DecidableEq, Repr

/-- Record a dropped name: `if !m[name] { m[name] = true }`. -/
def recordDrop (m : GoMap Bool) (name : String) : GoMap Bool :=
  if !m.getBool name then m.set name true else m

/-- The loop over `feature.Properties` in `processFeatures`: the properties still to
visit, the properties of `newFeature`, and the globals. -/
def processProperties {V : Type} (re : RegexpEngine) :
    List (String × V) → GoMap V → Globals → Except Failure (GoMap V × Globals)
  | [], props, g => .ok (props, g)
  | (property, value) :: rest, props, g =>
    match containsAttr re g property with
    | .error e => .error e
    | .ok false =>
      processProperties re rest props
        { g with removedAttributesMap := recordDrop g.removedAttributesMap property }
    | .ok true => processProperties re rest (props.set property value) g

/-- The loop over `layer.Features` in `processFeatures`: the features still to visit,
the collection `features`, and the globals.  `round` is `orb.Round`. -/
def processFeaturesLoop {G V : Type} (re : RegexpEngine) (round : G → G) :
    List (geojson.Feature G V) → List (geojson.Feature G V) → Globals →
      Except Failure (List (geojson.Feature G V) × Globals)
  | [], features, g => .ok (features, g)
  | feature :: rest, features, g =>
    match processProperties re feature.Properties [] g with
    | .error e => .error e
    | .ok (props, g1) =>
      processFeaturesLoop re round rest
        (features ++ [{ Geometry := round feature.Geometry, Properties := props }]) g1

/-- Source function `processFeatures` of `cmd/root.go`. -/
def processFeatures {G V : Type} (re : RegexpEngine) (round : G → G) (g : Globals)
    (layer : mvt.Layer G V) : Except Failure (mvt.Layer G V × Globals) :=
  match processFeaturesLoop re round layer.Features [] g with
  | .error e => .error e
  | .ok (features, g1) => .ok ({ Name := layer.Name, Features := features }, g1)

/-- Lines 274-288 of `ProcessTiles`, the loop over the layers of one tile: the
layers still to visit, `newLayers`, and the globals. -/
def layerLoop {G V : Type} (re : RegexpEngine) (round : G → G) :
    List (mvt.Layer G V) → List (mvt.Layer G V) → Globals →
      Except Failure (List (mvt.Layer G V) × Globals)
  | [], newLayers, g => .ok (newLayers, g)
  | layer :: rest, newLayers, g =>
    match containsSourceLayer re g layer.Name with
    | .error e => .error e
    | .ok false =>
      layerLoop re round rest newLayers
        { g with removedLayersMap := recordDrop g.removedLayersMap layer.Name }
    | .ok true =>
      match processFeatures re round g layer with
      | .error e => .error e
      | .ok (newLayer, g1) => layerLoop re round rest (newLayers ++ [newLayer]) g1

/-- The `orb` library as the tile loop uses it, for payloads of type `B`:
`orb.Round`, `mvt.Layers.Clip` with the Mapbox bound, and the four codec functions
of `encoding/mvt` (`Marshal` is part of the library; the program does not call it). -/
structure Orb (B G V : Type) where
  Round : G → G
  Clip : List (mvt.Layer G V) → List (mvt.Layer G V)
  Unmarshal : B → Except String (List (mvt.Layer G V))
  UnmarshalGzipped : B → Except String (List (mvt.Layer G V))
  Marshal : List (mvt.Layer G V) → Except String B
  MarshalGzipped : List (mvt.Layer G V) → Except String B

/-- Source type `Tile` of `cmd/root.go`. -/
structure Tile (B : Type) where
  zoom_level : Int
  tile_column : Int
  tile_row : Int
  tile_data : B
  deriving DecidableEq, Repr

/-- Lines 256-310 of `ProcessTiles`, the body of the loop over tile rows: the row
inserted into the output and the globals afterwards. -/
def processTile {B G V : Type} (re : RegexpEngine) (orb : Orb B G V) (g : Globals)
    (i : Tile B) : Except Failure (Tile B × Globals) :=
  match (if g.gzipped then orb.UnmarshalGzipped i.tile_data
         else orb.Unmarshal i.tile_data) with
  | .error err => .error (.fatal err)
  | .ok layers =>
    match layerLoop re orb.Round layers [] g with
    | .error e => .error e
    | .ok (newLayers, g1) =>
      match orb.MarshalGzipped (orb.Clip newLayers) with
      | .error err => .error (.fatal err)
      | .ok data => .ok ({ i with tile_data := data }, g1)

/-- The loop over all tile rows (the batches of 100 rows taken in the order of the
query visit every row once, in that order). -/
def tilesLoop {B G V : Type} (re : RegexpEngine) (orb : Orb B G V) :
    List (Tile B) → List (Tile B) → Globals → Except Failure (List (Tile B) × Globals)
  | [], out, g => .ok (out, g)
  | i :: rest, out, g =>
    match processTile re orb g i with
    | .error e => .error e
    | .ok (row, g1) => tilesLoop re orb rest (out ++ [row]) g1

/-! ## Metadata -/

/-- Source type `VectorLayer` of `cmd/root.go`.  The zooms are Go `int`s. -/
structure VectorLayer where
  Fields : GoMap String
  Id : String
  Minzoom : Int
  Maxzoom : Int
  deriving DecidableEq, Repr

/-- Source type `MetaJson` of `cmd/root.go`. -/
structure MetaJson where
  VectorLayers : List VectorLayer
  deriving DecidableEq, Repr

/-- The text of a metadata value, represented by what `json.Unmarshal` makes of it
in a zero `MetaJson`, whether or not the decoder also reports an error (the program
discards it): `schema m` is a text that leaves `m`, such as the serialisation of
`m`, and `raw s` is a text `s` that leaves the zero value.  The rewriter starts
from the decoded schema. -/
inductive Text where
  | raw (s : String)
  | schema (m : MetaJson)
  deriving DecidableEq, Repr

/-- Source type `Metadata` of `cmd/root.go`. -/
structure Metadata where
  name : String
  value : Text
  deriving DecidableEq, Repr

/-- The library call `json.Unmarshal([]byte(i.value), &metaJson)` on a zero `metaJson`. -/
def unmarshalMetaJson : Text → MetaJson
  | .raw _ => { VectorLayers := [] }
  | .schema m => m

/-- Lines 189-193 of `ProcessTiles`: `for field := range layer.Fields`, deleting the
fields that `containsAttr` rejects.  The first argument is the keys still to visit. -/
def filterFields (re : RegexpEngine) (g : Globals) :
    List String → GoMap String → Except Failure (GoMap String)
  | [], fields => .ok fields
  | field :: rest, fields =>
    match containsAttr re g field with
    | .error e => .error e
    | .ok false => filterFields re g rest (fields.delete field)
    | .ok true => filterFields re g rest fields

/-- Lines 182-196 of `ProcessTiles`, the loop over `metaJson.VectorLayers`: the
layers still to visit and `newVectorLayers`. -/
def vectorLayersLoop (re : RegexpEngine) (g : Globals) :
    List VectorLayer → List VectorLayer → Except Failure (List VectorLayer)
  | [], newVectorLayers => .ok newVectorLayers
  | layer :: rest, newVectorLayers =>
    match containsSourceLayer re g layer.Id with
    | .error e => .error e
    | .ok false => vectorLayersLoop re g rest newVectorLayers
    | .ok true =>
      match filterFields re g layer.Fields.keys layer.Fields with
      | .error e => .error e
      | .ok fields =>
        vectorLayersLoop re g rest (newVectorLayers ++ [{ layer with Fields := fields }])

/-- Lines 177-207 of `ProcessTiles`: the new schema written for the `json` row. -/
def rewriteMetaJson (re : RegexpEngine) (g : Globals) (metaJson : MetaJson) :
    Except Failure MetaJson :=
  match vectorLayersLoop re g metaJson.VectorLayers [] with
  | .error e => .error e
  | .ok newVectorLayers => .ok { metaJson with VectorLayers := newVectorLayers }

/-- Lines 169-220 of `ProcessTiles`, the loop over the metadata rows: the rows still
to visit and the rows inserted so far. -/
def metadataLoop (re : RegexpEngine) (g : Globals) :
    List Metadata → List Metadata → Except Failure (List Metadata)
  | [], out => .ok out
  | i :: rest, out =>
    if i.name = "json" then
      match rewriteMetaJson re g (unmarshalMetaJson i.value) with
      | .error e => .error e
      | .ok metaJson => metadataLoop re g rest (out ++ [{ i with value := .schema metaJson }])
    else metadataLoop re g rest (out ++ [i])

/-! ## The run -/

/-- The two tables of an MBTiles file; `tiles` is in the order of the query
`ORDER BY zoom_level, tile_column, tile_row`. -/
structure Archive (B : Type) where
  metadata : List Metadata
  tiles : List (Tile B)
  deriving DecidableEq, Repr

/-- Source function `ProcessTiles` of `cmd/root.go`, from the style document and the
input archive to the output archive and the final globals (file and database
operations are taken to succeed).  `g` holds the flags; its slices and maps are nil. -/
def ProcessTiles {B G V : Type} (re : RegexpEngine) (orb : Orb B G V) (g : Globals)
    (style : List LayerDoc) (input : Archive B) : Except Failure (Archive B × Globals) :=
  match unmarshalStyle style with
  | (_, some (.panic msg)) => .error (.panic msg)
  | (styles, _) =>
    let g1 := collectStyle g styles
    match metadataLoop re g1 input.metadata [] with
    | .error e => .error e
    | .ok metadata =>
      let g2 := { g1 with removedLayersMap := [], removedAttributesMap := [] }
      match tilesLoop re orb input.tiles [] g2 with
      | .error e => .error e
      | .ok (tiles, g3) => .ok ({ metadata := metadata, tiles := tiles }, g3)

/-! ## Sample inputs -/

/-- Globals after scanning the style of the end-to-end scenario (one layer `roads`
with filter `["==","class","motorway"]`), with the keep-layers override `^water$`. -/
def sampleGlobals : Globals :=
  { attributes := ["class"], sourceLayers := ["roads"], keepAttributes := "",
    keepLayers := "^water$", gzipped := false,
    removedAttributesMap := [], removedLayersMap := [] }

/-- The text of `n + 1` nested arrays, `[[...[]...]]`. -/
def nestedArrays : Nat → Json
  | 0 => .array []
  | n + 1 => .array [nestedArrays n]

/-! ## The filtering step in the words of the specification -/

/-- A retention decision that returned true. -/
def passes (r : Except Failure Bool) : Bool :=
  match r with
  | .ok true => true
  | _ => false

/-- The layer name passes `containsSourceLayer`. -/
def keepLayer (re : RegexpEngine) (g : Globals) (name : String) : Bool :=
  passes (containsSourceLayer re g name)

/-- The attribute name passes `containsAttr`. -/
def keepAttr (re : RegexpEngine) (g : Globals) (name : String) : Bool :=
  passes (containsAttr re g name)

/-- The entries of a property map whose key passes `containsAttr`, values unchanged. -/
def keptProperties {V : Type} (re : RegexpEngine) (g : Globals) (props : GoMap V) : GoMap V :=
  props.filter (fun kv => keepAttr re g kv.1)

/-- A feature with its geometry rounded and its properties restricted to the kept keys. -/
def keptFeature {G V : Type} (re : RegexpEngine) (round : G → G) (g : Globals)
    (f : geojson.Feature G V) : geojson.Feature G V :=
  { Geometry := round f.Geometry, Properties := keptProperties re g f.Properties }

/-- A layer under its own name with every feature, in order, restricted to the kept keys. -/
def keptLayer {G V : Type} (re : RegexpEngine) (round : G → G) (g : Globals)
    (l : mvt.Layer G V) : mvt.Layer G V :=
  { Name := l.Name, Features := l.Features.map (keptFeature re round g) }

/-- The layers whose name passes `containsSourceLayer`, in order, each restricted. -/
def keptLayers {G V : Type} (re : RegexpEngine) (round : G → G) (g : Globals)
    (layers : List (mvt.Layer G V)) : List (mvt.Layer G V) :=
  (layers.filter (fun l => keepLayer re g l.Name)).map (keptLayer re round g)

/-- The vector layers of a schema whose id passes `containsSourceLayer`, in order,
each with its field map restricted to the names passing `containsAttr`. -/
def keptVectorLayers (re : RegexpEngine) (g : Globals) (layers : List VectorLayer) :
    List VectorLayer :=
  (layers.filter (fun l => keepLayer re g l.Id)).map
    (fun l => { l with Fields := l.Fields.filter (fun kv => keepAttr re g kv.1) })

/-- The relation between the globals before and after a piece of the tile loop: the
style-derived lists and the flags are unchanged, a recorded name stays recorded, and
the keys of the two accumulators stay pairwise distinct. -/
structure Globals.Extends (g g1 : Globals) : Prop where
  attributes : g1.attributes = g.attributes
  sourceLayers : g1.sourceLayers = g.sourceLayers
  keepAttributes : g1.keepAttributes = g.keepAttributes
  keepLayers : g1.keepLayers = g.keepLayers
  gzipped : g1.gzipped = g.gzipped
  layersMono : ∀ n, g.removedLayersMap.getBool n = true → g1.removedLayersMap.getBool n = true
  attrsMono : ∀ n, g.removedAttributesMap.getBool n = true →
    g1.removedAttributesMap.getBool n = true
  layersNodup : g.removedLayersMap.keys.Nodup → g1.removedLayersMap.keys.Nodup
  attrsNodup : g.removedAttributesMap.keys.Nodup → g1.removedAttributesMap.keys.Nodup

/-- Globals after scanning the style of the end-to-end scenario, no override set. -/
def scenarioGlobals : Globals :=
  { attributes := ["class"], sourceLayers := ["roads"], keepAttributes := "",
    keepLayers := "", gzipped := false,
    removedAttributesMap := [], removedLayersMap := [] }

/-- The decoded tile of the end-to-end scenario: layer `roads` with one feature
carrying `class`, `oneway` and `name`, and layer `water`.  Geometries are numbers
and property values are strings here. -/
def scenarioLayers : List (mvt.Layer Nat String) :=
  [{ Name := "roads",
     Features := [{ Geometry := 7,
                    Properties := [("class", "motorway"), ("oneway", "yes"), ("name", "A1")] }] },
   { Name := "water", Features := [{ Geometry := 8, Properties := [("kind", "lake")] }] }]

/-- A schema listing the layers `roads` (fields `class`, `oneway`) and `water`. -/
def scenarioMetaJson : MetaJson :=
  { VectorLayers :=
      [{ Fields := [("class", "String"), ("oneway", "Number")], Id := "roads",
         Minzoom := 0, Maxzoom := 14 },
       { Fields := [("kind", "String")], Id := "water", Minzoom := 0, Maxzoom := 14 }] }

/-- A tile payload of the sample codec: the layers it encodes, and whether the
bytes are gzip-compressed. -/
structure SamplePayload where
  compressed : Bool
  layers : List (mvt.Layer Nat String)
  deriving DecidableEq, Repr

/-- A sample instance of the `orb` library: rounding and clipping change nothing,
the plain decoder accepts the uncompressed payloads and the gzip decoder the
compressed ones, `Marshal` writes an uncompressed payload and `MarshalGzipped` a
compressed one. -/
def sampleOrb : Orb SamplePayload Nat String :=
  { Round := id
    Clip := id
    Unmarshal := fun b =>
      if b.compressed then .error "proto: cannot parse invalid wire-format data"
      else .ok b.layers
    UnmarshalGzipped := fun b =>
      if b.compressed then .ok b.layers else .error "gzip: invalid header"
    Marshal := fun layers => .ok { compressed := false, layers := layers }
    MarshalGzipped := fun layers => .ok { compressed := true, layers := layers } }

/-- The globals when `ProcessTiles` starts with no flag given. -/
def initialGlobals : Globals :=
  { attributes := [], sourceLayers := [], keepAttributes := "", keepLayers := "",
    gzipped := false, removedAttributesMap := [], removedLayersMap := [] }

/-- The style of the end-to-end scenario:
`{id:"roads", "source-layer":"roads", filter:["==","class","motorway"]}`. -/
def scenarioStyle : List LayerDoc :=
  [{ Id := "roads", SourceLayer := "roads",
     Filter := some (.array [.string "==", .string "class", .string "motorway"]) }]

/-- An uncompressed tile at 0/0/0 holding the layers of the end-to-end scenario. -/
def scenarioTile : Tile SamplePayload :=
  { zoom_level := 0, tile_column := 0, tile_row := 0,
    tile_data := { compressed := false, layers := scenarioLayers } }

/-- An archive whose schema lists `roads` and `water`, and whose only tile holds the
single layer `roads` with properties `class` and `name`. -/
def roadsOnlyArchive : Archive SamplePayload :=
  { metadata := [{ name := "name", value := .raw "sample" },
                 { name := "json", value := .schema scenarioMetaJson }]
    tiles := [{ zoom_level := 0, tile_column := 0, tile_row := 0,
                tile_data :=
                  { compressed := false,
                    layers := [{ Name := "roads",
                                 Features := [{ Geometry := 7,
                                                Properties := [("class", "motorway"),
                                                               ("name", "A1")] }] }] } }] }

/-- A style of three layers whose second filter has the operator `within`, which
`UnmarshalFilter` does not know. -/
def brokenStyle : List LayerDoc :=
  [{ Id := "roads", SourceLayer := "roads",
     Filter := some (.array [.string "==", .string "class", .string "motorway"]) },
   { Id := "lakes", SourceLayer := "water",
     Filter := some (.array [.string "within", .object []]) },
   { Id := "parks", SourceLayer := "landuse",
     Filter := some (.array [.string "==", .string "kind", .string "park"]) }]

/-- An archive with one uncompressed tile holding the layer `landuse`. -/
def landuseArchive : Archive SamplePayload :=
  { metadata := []
    tiles := [{ zoom_level := 0, tile_column := 0, tile_row := 0,
                tile_data :=
                  { compressed := false,
                    layers := [{ Name := "landuse",
                                 Features := [{ Geometry := 3,
                                                Properties := [("kind", "park")] }] }] } }] }

/-- The decoder the tile loop selects: `mvt.UnmarshalGzipped` when the flag is set,
`mvt.Unmarshal` otherwise. -/
def decodeTile {B G V : Type} (orb : Orb B G V) (gzipped : Bool) (data : B) :
    Except String (List (mvt.Layer G V)) :=
  if gzipped then orb.UnmarshalGzipped data else orb.Unmarshal data

/-- The encoder the specification describes: compression exactly when the flag is set. -/
def encodeByFlag {B G V : Type} (orb : Orb B G V) (gzipped : Bool)
    (layers : List (mvt.Layer G V)) : Except String B :=
  if gzipped then orb.MarshalGzipped layers else orb.Marshal layers

/-- The archive of the end-to-end scenario: the schema lists `roads` and `water`, the
only tile holds both layers. -/
def scenarioArchive : Archive SamplePayload :=
  { metadata := [{ name := "json", value := .schema scenarioMetaJson }]
    tiles := [scenarioTile] }

/-- The globals at the end of the end-to-end scenario. -/
def scenarioFinalGlobals : Globals :=
  { attributes := ["class"], sourceLayers := ["roads"], keepAttributes := "",
    keepLayers := "", gzipped := false,
    removedAttributesMap := [("oneway", true)], removedLayersMap := [("water", true)] }

/-- The output archive of the end-to-end scenario. -/
def scenarioOutput : Archive SamplePayload :=
  { metadata :=
      [{ name := "json",
         value := .schema { VectorLayers :=
           [{ Fields := [("class", "String")], Id := "roads", Minzoom := 0, Maxzoom := 14 }] } }]
    tiles :=
      [{ zoom_level := 0, tile_column := 0, tile_row := 0,
         tile_data :=
           { compressed := true,
             layers := [{ Name := "roads",
                          Features := [{ Geometry := 7,
                                         Properties := [("class", "motorway"),
                                                        ("name", "A1")] }] }] } }] }

/-- The rejections of the tile loop on the layers of one tile are recorded in `g1`:
a rejected layer name is in `removedLayersMap`, and a rejected property key of a
kept layer is in `removedAttributesMap`.  The decisions are those of `g`. -/
def DropsRecorded {G V : Type} (re : RegexpEngine) (g g1 : Globals)
    (layers : List (mvt.Layer G V)) : Prop :=
  ∀ l ∈ layers,
    (containsSourceLayer re g l.Name = .ok false →
      g1.removedLayersMap.getBool l.Name = true) ∧
    (containsSourceLayer re g l.Name = .ok true →
      ∀ f ∈ l.Features, ∀ kv ∈ f.Properties, containsAttr re g kv.1 = .ok false →
        g1.removedAttributesMap.getBool kv.1 = true)

/-! ## Retention policy -/

theorem rangeContains_iff (xs : List String) (x : String) :
    rangeContains xs x = true ↔ x ∈ xs := by
  induction xs with
  | nil => simp [rangeContains]
  | cons value rest ih =>
    by_cases h : value = x
    · simp [rangeContains, h]
    · have h2 : ¬ x = value := fun e => h e.symm
      simp [rangeContains, h, h2, ih]

theorem overrideOk_iff (re : RegexpEngine) (pattern : String) :
    overrideOk re pattern ↔ pattern = "" ∨ ∃ m, re pattern = some m := by
  unfold overrideOk
  rw [Option.isSome_iff_exists]

theorem overrideMatches_iff (re : RegexpEngine) (pattern s : String) :
    overrideMatches re pattern s ↔
      pattern ≠ "" ∧ ∃ m, re pattern = some m ∧ m s = true := by
  unfold overrideMatches
  cases h : re pattern with
  | none => simp
  | some m => simp

theorem matchString_of_compiles (re : RegexpEngine) (pattern s : String)
    (m : String → Bool) (h : re pattern = some m) :
    regexp.MatchString re pattern s = (m s, none) := by
  simp [regexp.MatchString, h]

/-- C1. With the keep-attributes override unset or well-formed, `containsAttr` returns,
and it returns true exactly when the name starts with `name`, or starts with `ref`,
or the override is set and matches it, or it is in the style-derived field list.
In particular `name:en` and `ref` are kept for every style, and `population` is kept
exactly when it is in the field list or matches the override. -/
theorem containsAttr_iff (re : RegexpEngine) (g : Globals)
    (h : overrideOk re g.keepAttributes) :
    (∀ name : String, ∃ b, containsAttr re g name = .ok b ∧
      (b = true ↔ (strings.HasPrefix name "name" = true ∨ strings.HasPrefix name "ref" = true ∨
        overrideMatches re g.keepAttributes name ∨ name ∈ g.attributes))) ∧
    containsAttr re g "name:en" = .ok true ∧
    containsAttr re g "ref" = .ok true ∧
    (∃ b, containsAttr re g "population" = .ok b ∧
      (b = true ↔ ("population" ∈ g.attributes ∨
        overrideMatches re g.keepAttributes "population"))) := by
  have main : ∀ name : String, ∃ b, containsAttr re g name = .ok b ∧
      (b = true ↔ (strings.HasPrefix name "name" = true ∨ strings.HasPrefix name "ref" = true ∨
        overrideMatches re g.keepAttributes name ∨ name ∈ g.attributes)) := by
    intro name
    unfold containsAttr
    by_cases h1 : strings.HasPrefix name "name" = true
    · exact ⟨true, by simp [h1], by simp [h1]⟩
    by_cases h2 : strings.HasPrefix name "ref" = true
    · exact ⟨true, by simp [h1, h2], by simp [h2]⟩
    by_cases h3 : g.keepAttributes = ""
    · refine ⟨rangeContains g.attributes name, by simp [h1, h2, h3], ?_⟩
      simp [h1, h2, h3, overrideMatches, rangeContains_iff]
    · rcases (overrideOk_iff _ _).mp h with h | ⟨m, hm⟩
      · exact absurd h h3
      · rw [if_neg h1, if_neg h2, if_pos h3, matchString_of_compiles re _ _ m hm]
        by_cases h4 : m name = true
        · refine ⟨true, by simp [h4], ?_⟩
          simp only [true_iff]
          exact Or.inr (Or.inr (Or.inl ((overrideMatches_iff _ _ _).mpr ⟨h3, m, hm, h4⟩)))
        · have h5 : m name = false := by simpa using h4
          refine ⟨rangeContains g.attributes name, by simp [h5], ?_⟩
          rw [rangeContains_iff]
          constructor
          · intro hin
            exact Or.inr (Or.inr (Or.inr hin))
          · rintro (hp | hp | hov | hin)
            · exact absurd hp h1
            · exact absurd hp h2
            · obtain ⟨_, m2, hm2, hmatch⟩ := (overrideMatches_iff _ _ _).mp hov
              rw [hm] at hm2
              cases hm2
              exact absurd hmatch h4
            · exact hin
  refine ⟨main, ?_, ?_, ?_⟩
  · simp [containsAttr, strings.HasPrefix]
  · simp [containsAttr, strings.HasPrefix]
  · obtain ⟨b, hb, hiff⟩ := main "population"
    refine ⟨b, hb, hiff.trans ?_⟩
    have e1 : strings.HasPrefix "population" "name" = false := by decide
    have e2 : strings.HasPrefix "population" "ref" = false := by decide
    rw [e1, e2]
    simp only [Bool.false_eq_true, false_or]
    exact Or.comm

/-- Instance of C1: the override `^population$` with the sample style. -/
theorem containsAttr_iff_witness :
    overrideOk sampleRegexp "^population$" ∧
    containsAttr sampleRegexp { sampleGlobals with keepAttributes := "^population$" }
      "name:en" = .ok true :=
  ⟨Or.inr rfl,
   (containsAttr_iff sampleRegexp { sampleGlobals with keepAttributes := "^population$" }
      (Or.inr rfl)).2.1⟩

/-- C2. With the keep-layers override unset or well-formed, `containsSourceLayer`
returns, and it returns true exactly when the override is set and matches the name,
or the name is in the style-derived source-layer list.  In particular a layer that
no style layer references is kept whenever the override matches it. -/
theorem containsSourceLayer_iff (re : RegexpEngine) (g : Globals)
    (h : overrideOk re g.keepLayers) :
    (∀ name : String, ∃ b, containsSourceLayer re g name = .ok b ∧
      (b = true ↔ (overrideMatches re g.keepLayers name ∨ name ∈ g.sourceLayers))) ∧
    (∀ name : String, name ∉ g.sourceLayers → overrideMatches re g.keepLayers name →
      containsSourceLayer re g name = .ok true) := by
  have main : ∀ name : String, ∃ b, containsSourceLayer re g name = .ok b ∧
      (b = true ↔ (overrideMatches re g.keepLayers name ∨ name ∈ g.sourceLayers)) := by
    intro name
    unfold containsSourceLayer
    by_cases h3 : g.keepLayers = ""
    · refine ⟨rangeContains g.sourceLayers name, by simp [h3], ?_⟩
      simp [h3, overrideMatches, rangeContains_iff]
    · rcases (overrideOk_iff _ _).mp h with h | ⟨m, hm⟩
      · exact absurd h h3
      · rw [if_pos h3, matchString_of_compiles re _ _ m hm]
        by_cases h4 : m name = true
        · refine ⟨true, by simp [h4], ?_⟩
          simp only [true_iff]
          exact Or.inl ((overrideMatches_iff _ _ _).mpr ⟨h3, m, hm, h4⟩)
        · have h5 : m name = false := by simpa using h4
          refine ⟨rangeContains g.sourceLayers name, by simp [h5], ?_⟩
          rw [rangeContains_iff]
          constructor
          · intro hin
            exact Or.inr hin
          · rintro (hov | hin)
            · obtain ⟨_, m2, hm2, hmatch⟩ := (overrideMatches_iff _ _ _).mp hov
              rw [hm] at hm2
              cases hm2
              exact absurd hmatch h4
            · exact hin
  refine ⟨main, ?_⟩
  intro name _ hmatch
  obtain ⟨b, hb, hiff⟩ := main name
  have hb2 : b = true := hiff.mpr (Or.inl hmatch)
  rw [hb, hb2]

/-- Instance of C2: the override scenario, `--keep-layers "^water$"` keeps `water`. -/
theorem containsSourceLayer_iff_witness :
    overrideOk sampleRegexp sampleGlobals.keepLayers ∧
    containsSourceLayer sampleRegexp sampleGlobals "water" = .ok true :=
  ⟨Or.inr rfl,
   (containsSourceLayer_iff sampleRegexp sampleGlobals (Or.inr rfl)).2 "water"
     (by decide) ⟨by decide, by decide⟩⟩

/-! ## Maps -/

theorem GoMap.mem_keys_set {V : Type} (m : GoMap V) (a : String) (v : V) (k : String) :
    k ∈ (m.set a v).keys ↔ k ∈ m.keys ∨ k = a := by
  induction m with
  | nil => simp [GoMap.set, GoMap.keys]
  | cons kv rest ih =>
    obtain ⟨k1, v1⟩ := kv
    by_cases h : k1 = a
    · subst h
      simp [GoMap.set, GoMap.keys]
      tauto
    · simp only [GoMap.keys] at ih
      simp [GoMap.set, GoMap.keys, h, ih]
      tauto

theorem GoMap.set_of_not_mem {V : Type} (m : GoMap V) (a : String) (v : V)
    (h : a ∉ m.keys) : m.set a v = m ++ [(a, v)] := by
  induction m with
  | nil => rfl
  | cons kv rest ih =>
    obtain ⟨k1, v1⟩ := kv
    simp only [GoMap.keys, List.map_cons, List.mem_cons, not_or] at h
    have h1 : ¬ k1 = a := fun e => h.1 e.symm
    simp only [GoMap.set, h1, if_false, List.cons_append]
    rw [ih h.2]

theorem GoMap.keys_set_of_mem {V : Type} (m : GoMap V) (a : String) (v : V)
    (h : a ∈ m.keys) : (m.set a v).keys = m.keys := by
  induction m with
  | nil => simp [GoMap.keys] at h
  | cons kv rest ih =>
    obtain ⟨k1, v1⟩ := kv
    by_cases h1 : k1 = a
    · subst h1
      simp [GoMap.set, GoMap.keys]
    · simp only [GoMap.keys, List.map_cons, List.mem_cons] at h
      have h2 : a ∈ GoMap.keys rest := by
        rcases h with h | h
        · exact absurd h.symm h1
        · exact h
      have := ih h2
      simp only [GoMap.keys] at this
      simp [GoMap.set, GoMap.keys, h1, this]

theorem GoMap.nodup_keys_set {V : Type} (m : GoMap V) (a : String) (v : V)
    (h : m.keys.Nodup) : (m.set a v).keys.Nodup := by
  by_cases ha : a ∈ m.keys
  · rw [GoMap.keys_set_of_mem m a v ha]
    exact h
  · rw [GoMap.set_of_not_mem m a v ha]
    simp only [GoMap.keys, List.map_append, List.map_cons, List.map_nil]
    rw [List.nodup_append]
    refine ⟨h, List.nodup_singleton a, ?_⟩
    intro x hx hx2
    simp only [List.mem_singleton] at hx2
    subst hx2
    exact ha hx

theorem GoMap.get?_isSome_iff {V : Type} (m : GoMap V) (k : String) :
    (m.get? k).isSome = true ↔ k ∈ m.keys := by
  induction m with
  | nil => simp [GoMap.get?, GoMap.keys]
  | cons kv rest ih =>
    obtain ⟨k1, v1⟩ := kv
    by_cases h : k1 = k
    · simp [GoMap.get?, GoMap.keys, h]
    · have h2 : ¬ k = k1 := fun e => h e.symm
      simp only [GoMap.keys] at ih
      simp [GoMap.get?, GoMap.keys, h, h2, ih]

theorem foldl_append_if (p : String → Bool) (l acc : List String) :
    l.foldl (fun result k => if p k then result ++ [k] else result) acc
      = acc ++ l.filter p := by
  induction l generalizing acc with
  | nil => simp
  | cons k rest ih =>
    by_cases h : p k = true
    · simp [List.foldl, h, ih, List.filter]
    · simp [List.foldl, h, ih, List.filter]

/-! ## Field extraction -/

theorem getFields_eq_keys (f : Filter) : getFields f = (collectFields f []).keys := by
  unfold getFields
  simp only
  rw [foldl_append_if]
  simp only [List.nil_append]
  apply List.filter_eq_self.mpr
  intro k hk
  exact (GoMap.get?_isSome_iff _ k).mpr hk

mutual
theorem collectFields_nodup : ∀ (f : Filter) (m : GoMap Unit),
    m.keys.Nodup → (collectFields f m).keys.Nodup
  | .nil, m, h => by simpa [collectFields] using h
  | .ComparisonFilter _ Field _, m, h => by
    unfold collectFields
    by_cases hf : Field = ""
    · simpa [hf] using h
    · simpa [hf] using GoMap.nodup_keys_set m Field () h
  | .LogicalFilter _ Filters, m, h => by
    unfold collectFields
    exact collectFieldsList_nodup Filters m h
theorem collectFieldsList_nodup : ∀ (fs : List Filter) (m : GoMap Unit),
    m.keys.Nodup → (collectFieldsList fs m).keys.Nodup
  | [], m, h => by simpa [collectFieldsList] using h
  | sub :: rest, m, h => by
    unfold collectFieldsList
    exact collectFieldsList_nodup rest _ (collectFields_nodup sub m h)
end

mutual
theorem mem_collectFields : ∀ (f : Filter) (m : GoMap Unit) (k : String),
    k ∈ (collectFields f m).keys ↔ k ∈ m.keys ∨ k ∈ getFields f
  | .nil, m, k => by simp [getFields_eq_keys, collectFields, GoMap.keys]
  | .ComparisonFilter _ Field _, m, k => by
    rw [getFields_eq_keys]
    unfold collectFields
    by_cases hf : Field = ""
    · simp [hf, GoMap.keys]
    · simp only [hf, ne_eq, not_false_eq_true, if_true]
      rw [GoMap.mem_keys_set, GoMap.mem_keys_set]
      simp [GoMap.keys]
  | .LogicalFilter _ Filters, m, k => by
    rw [getFields_eq_keys]
    unfold collectFields
    rw [mem_collectFieldsList Filters m k, mem_collectFieldsList Filters [] k]
    simp [GoMap.keys]
theorem mem_collectFieldsList : ∀ (fs : List Filter) (m : GoMap Unit) (k : String),
    k ∈ (collectFieldsList fs m).keys ↔ k ∈ m.keys ∨ ∃ f ∈ fs, k ∈ getFields f
  | [], m, k => by simp [collectFieldsList]
  | sub :: rest, m, k => by
    unfold collectFieldsList
    rw [mem_collectFieldsList rest _ k, mem_collectFields sub m k]
    simp only [List.mem_cons, exists_eq_or_imp]
    tauto
end

/-- C4. The names `getFields` returns for a `LogicalFilter` node are exactly the names
it returns for some child (none when there is no child), whatever the children are,
and `getFields` never returns a name twice. -/
theorem getFields_logical (op : String) (filters : List Filter) :
    (∀ name : String, name ∈ getFields (.LogicalFilter op filters) ↔
      ∃ child ∈ filters, name ∈ getFields child) ∧
    getFields (.LogicalFilter op []) = [] ∧
    (∀ f : Filter, (getFields f).Nodup) := by
  refine ⟨?_, ?_, ?_⟩
  · intro name
    rw [getFields_eq_keys]
    unfold collectFields
    rw [mem_collectFieldsList]
    simp [GoMap.keys]
  · rfl
  · intro f
    rw [getFields_eq_keys]
    exact collectFields_nodup f [] (by simp [GoMap.keys])

/-! ## The filter parser -/

theorem fitsFloat64_1e999 : JNumber.fitsFloat64 ⟨false, 1, 999⟩ = false := by
  simp only [JNumber.fitsFloat64]
  norm_num

theorem Json.depth_le_depthList (elems : List Json) (v : Json) (h : v ∈ elems) :
    v.depth ≤ Json.depthList elems := by
  induction elems with
  | nil => simp at h
  | cons w rest ih =>
    unfold Json.depthList
    rcases List.mem_cons.mp h with rfl | hmem
    · exact le_max_left _ _
    · exact le_trans (ih hmem) (le_max_right _ _)

theorem checkValid_of_depth_le (data : Json) (h : data.depth ≤ maxNestingDepth) :
    checkValid data = none := by
  simp [checkValid, h]

theorem unmarshalFilter_of_too_deep (data : Json) (h : maxNestingDepth < data.depth) :
    ∃ msg, UnmarshalFilter data = .error (.error msg) := by
  have hc : ¬ data.depth ≤ maxNestingDepth := Nat.not_le.mpr h
  have hw : ∀ next : Except Failure Filter, ∃ msg,
      whenValid data next = .error (.error msg) := by
    intro next
    simp only [whenValid, checkValid, hc, if_false, maxDepthError]
    exact ⟨_, rfl⟩
  unfold UnmarshalFilter
  split <;> exact hw _

theorem unmarshalValues_of_fit (operands : List Json)
    (hd : ∀ v ∈ operands, v.depth ≤ maxNestingDepth)
    (h : ∀ v ∈ operands, Json.numbersFit v = true) :
    unmarshalValues operands = .ok operands := by
  induction operands with
  | nil => rfl
  | cons v rest ih =>
    have hv : Json.firstBadNumber v = none := by
      have := h v (List.mem_cons_self v rest)
      simpa [Json.numbersFit] using this
    have hvd : checkValid v = none :=
      checkValid_of_depth_le v (hd v (List.mem_cons_self v rest))
    have hrest : ∀ w ∈ rest, Json.numbersFit w = true :=
      fun w hw => h w (List.mem_cons_of_mem v hw)
    have hdrest : ∀ w ∈ rest, w.depth ≤ maxNestingDepth :=
      fun w hw => hd w (List.mem_cons_of_mem v hw)
    simp [unmarshalValues, unmarshalValue, hv, hvd, ih hdrest hrest]

theorem depth_nestedArrays (n : Nat) : (nestedArrays n).depth = n + 1 := by
  induction n with
  | zero => simp [nestedArrays, Json.depth, Json.depthList]
  | succ n ih =>
    simp [nestedArrays, Json.depth, Json.depthList, ih]
    omega

theorem firstBadNumber_nestedArrays (n : Nat) :
    Json.firstBadNumber (nestedArrays n) = none := by
  induction n with
  | zero => simp [nestedArrays, Json.firstBadNumber, Json.firstBadNumberList]
  | succ n ih => simp [nestedArrays, Json.firstBadNumber, Json.firstBadNumberList, ih]

theorem depth_array (elems : List Json) :
    (Json.array elems).depth = 1 + Json.depthList elems := by
  simp [Json.depth]

theorem depthList_cons (v : Json) (rest : List Json) :
    Json.depthList (v :: rest) = max v.depth (Json.depthList rest) := by
  simp [Json.depthList]

theorem unmarshalValue_nestedArrays (n : Nat) (h : n + 1 ≤ maxNestingDepth) :
    unmarshalValue (nestedArrays n) = .ok (nestedArrays n) := by
  have hd : (nestedArrays n).depth ≤ maxNestingDepth := by
    rw [depth_nestedArrays]
    exact h
  simp only [unmarshalValue, checkValid_of_depth_le _ hd, firstBadNumber_nestedArrays]

theorem unmarshalFilter_nestedArrays (n : Nat) (h : maxNestingDepth ≤ n + 1) :
    ∃ msg, UnmarshalFilter (.array [.string "==", .string "class", nestedArrays n])
      = .error (.error msg) := by
  apply unmarshalFilter_of_too_deep
  rw [depth_array, depthList_cons, depthList_cons, depthList_cons, depth_nestedArrays]
  have : n + 1 ≤ max (n + 1) (Json.depthList []) := le_max_left _ _
  have h2 : max (n + 1) (Json.depthList []) ≤
      max (Json.string "==").depth (max (Json.string "class").depth
        (max (n + 1) (Json.depthList []))) :=
    le_trans (le_max_right _ _) (le_max_right _ _)
  omega

/-- C3, as stated, fails at two documents whose first element is a comparison
operator and whose second is a string.  On `["==","class",1e999]` `UnmarshalFilter`
returns the decoder's error for the number.  On `["==","class",V]`, where `V` is
10000 nested arrays (a JSON value that decodes on its own), the document is nested
10001 deep and the first `json.Unmarshal` returns an error. -/
theorem unmarshalFilter_rejects_operand :
    "==" ∈ comparisonOps ∧
    JNumber.literal ⟨false, 1, 999⟩ = "1e999" ∧
    (∃ msg, UnmarshalFilter
        (.array [.string "==", .string "class", .number ⟨false, 1, 999⟩])
      = .error (.error msg)) ∧
    unmarshalValue (nestedArrays 9999) = .ok (nestedArrays 9999) ∧
    (∃ msg, UnmarshalFilter (.array [.string "==", .string "class", nestedArrays 9999])
      = .error (.error msg)) := by
  refine ⟨by decide, by decide, ?_, ?_, ?_⟩
  · refine ⟨"json: cannot unmarshal number " ++ JNumber.literal ⟨false, 1, 999⟩ ++
      " into Go value of type float64", ?_⟩
    simp [UnmarshalFilter, whenValid, checkValid, maxNestingDepth, Json.depth,
      Json.depthList, unmarshalString, comparisonOps, unmarshalValues, unmarshalValue,
      Json.firstBadNumber, Json.firstBadNumberList, fitsFloat64_1e999]
  · exact unmarshalValue_nestedArrays 9999 (by decide)
  · exact unmarshalFilter_nestedArrays 9999 (by decide)

/-- C3, amended.  For an array nested at most 10000 deep, whose first element is one
of the 19 comparison operator names, whose second element is a JSON string `s`, and
whose remaining elements hold no number outside the float64 range, `UnmarshalFilter`
returns the `ComparisonFilter` with field `s` and these operands, and `getFields` of
it is `[s]` when `s` is non-empty and empty otherwise. -/
theorem unmarshalFilter_comparison (op s : String) (operands : List Json)
    (hop : op ∈ comparisonOps)
    (hdepth : (Json.array (.string op :: .string s :: operands)).depth ≤ maxNestingDepth)
    (hnum : ∀ v ∈ operands, Json.numbersFit v = true) :
    comparisonOps.length = 19 ∧
    UnmarshalFilter (.array (.string op :: .string s :: operands))
      = .ok (.ComparisonFilter op s operands) ∧
    getFields (.ComparisonFilter op s operands) = (if s = "" then [] else [s]) := by
  refine ⟨rfl, ?_, ?_⟩
  · have hd : ∀ v ∈ operands, v.depth ≤ maxNestingDepth := by
      intro v hv
      have h1 : v.depth ≤ Json.depthList (.string op :: .string s :: operands) :=
        Json.depth_le_depthList _ v
          (List.mem_cons_of_mem _ (List.mem_cons_of_mem _ hv))
      have h2 : (Json.array (.string op :: .string s :: operands)).depth
          = 1 + Json.depthList (.string op :: .string s :: operands) := by
        simp [Json.depth]
      omega
    have hs : ∀ t : String, checkValid (.string t) = none :=
      fun t => checkValid_of_depth_le _ (by simp [Json.depth])
    unfold UnmarshalFilter
    simp only [whenValid, checkValid_of_depth_le _ hdepth, unmarshalString, hs, hop, if_true]
    rw [unmarshalValues_of_fit operands hd hnum]
  · by_cases hs : s = ""
    · subst hs
      rfl
    · rw [getFields_eq_keys]
      simp [collectFields, hs, GoMap.set, GoMap.keys]

/-- Instance of C3: `["==","class","motorway"]` yields exactly the field `class`. -/
theorem unmarshalFilter_comparison_witness :
    ("==" ∈ comparisonOps ∧
      (Json.array [.string "==", .string "class", .string "motorway"]).depth
        ≤ maxNestingDepth ∧
      ∀ v ∈ [Json.string "motorway"], Json.numbersFit v = true) ∧
    UnmarshalFilter (.array [.string "==", .string "class", .string "motorway"])
      = .ok (.ComparisonFilter "==" "class" [.string "motorway"]) ∧
    getFields (.ComparisonFilter "==" "class" [.string "motorway"]) = ["class"] :=
  ⟨⟨by decide, by decide, by simp [Json.numbersFit, Json.firstBadNumber]⟩,
   (unmarshalFilter_comparison "==" "class" [.string "motorway"] (by decide) (by decide)
      (by simp [Json.numbersFit, Json.firstBadNumber])).2⟩

/-- C7, the code at the failing input: on `["has"]` and on `["=="]`, and on the
one-element array of each of the 19 comparison operators, the read of `raw[1]` is
out of range and `UnmarshalFilter` panics instead of returning an error. -/
theorem unmarshalFilter_missing_operand_panics :
    UnmarshalFilter (.array [.string "has"])
      = .error (.panic "runtime error: index out of range [1] with length 1") ∧
    UnmarshalFilter (.array [.string "=="])
      = .error (.panic "runtime error: index out of range [1] with length 1") ∧
    comparisonOps.map (fun op => UnmarshalFilter (.array [.string op]))
      = List.replicate 19
          (.error (.panic "runtime error: index out of range [1] with length 1")) := by
  refine ⟨rfl, rfl, ?_⟩
  rfl

/-! ## Drop accumulators -/

theorem GoMap.get?_set {V : Type} (m : GoMap V) (a : String) (v : V) (k : String) :
    (m.set a v).get? k = if a = k then some v else m.get? k := by
  induction m with
  | nil => simp [GoMap.set, GoMap.get?]
  | cons kv rest ih =>
    obtain ⟨k1, v1⟩ := kv
    by_cases h : k1 = a
    · subst h
      by_cases h2 : k1 = k
      · simp [GoMap.set, GoMap.get?, h2]
      · simp [GoMap.set, GoMap.get?, h2]
    · by_cases h2 : k1 = k
      · subst h2
        have h3 : ¬ a = k1 := fun e => h e.symm
        simp [GoMap.set, GoMap.get?, h, h3]
      · simp [GoMap.set, GoMap.get?, h, h2, ih]

theorem GoMap.mem_keys_of_getBool (m : GoMap Bool) (k : String)
    (h : m.getBool k = true) : k ∈ m.keys := by
  apply (GoMap.get?_isSome_iff m k).mp
  unfold GoMap.getBool at h
  cases hk : m.get? k with
  | none => simp [hk] at h
  | some b => rfl

theorem recordDrop_getBool (m : GoMap Bool) (name : String) :
    (recordDrop m name).getBool name = true := by
  unfold recordDrop
  by_cases h : m.getBool name = true
  · simp [h]
  · have h1 : m.getBool name = false := by simpa using h
    rw [h1]
    simp [GoMap.getBool, GoMap.get?_set]

theorem recordDrop_mono (m : GoMap Bool) (name n : String) (h : m.getBool n = true) :
    (recordDrop m name).getBool n = true := by
  unfold recordDrop
  by_cases h1 : m.getBool name = true
  · simp [h1, h]
  · by_cases h2 : name = n
    · subst h2
      exact absurd h h1
    · simp only [h1, Bool.not_false, if_true, Bool.false_eq_true]
      simpa [GoMap.getBool, GoMap.get?_set, h2] using h

theorem recordDrop_nodup (m : GoMap Bool) (name : String) (h : m.keys.Nodup) :
    (recordDrop m name).keys.Nodup := by
  unfold recordDrop
  by_cases h1 : m.getBool name = true
  · simpa [h1] using h
  · simpa [h1] using GoMap.nodup_keys_set m name true h

theorem recordDrop_of_recorded (m : GoMap Bool) (name : String)
    (h : m.getBool name = true) : recordDrop m name = m := by
  simp [recordDrop, h]

theorem recordDrop_idem (m : GoMap Bool) (name : String) :
    recordDrop (recordDrop m name) name = recordDrop m name :=
  recordDrop_of_recorded _ _ (recordDrop_getBool m name)

theorem Globals.Extends.refl (g : Globals) : Globals.Extends g g :=
  ⟨rfl, rfl, rfl, rfl, rfl, fun _ h => h, fun _ h => h, fun h => h, fun h => h⟩

theorem Globals.Extends.trans {a b c : Globals} (h1 : Globals.Extends a b)
    (h2 : Globals.Extends b c) : Globals.Extends a c :=
  ⟨h2.attributes.trans h1.attributes, h2.sourceLayers.trans h1.sourceLayers,
   h2.keepAttributes.trans h1.keepAttributes, h2.keepLayers.trans h1.keepLayers,
   h2.gzipped.trans h1.gzipped,
   fun n h => h2.layersMono n (h1.layersMono n h),
   fun n h => h2.attrsMono n (h1.attrsMono n h),
   fun h => h2.layersNodup (h1.layersNodup h),
   fun h => h2.attrsNodup (h1.attrsNodup h)⟩

theorem Globals.Extends.dropAttr (g : Globals) (name : String) :
    Globals.Extends g { g with removedAttributesMap := recordDrop g.removedAttributesMap name } :=
  ⟨rfl, rfl, rfl, rfl, rfl, fun _ h => h, fun n h => recordDrop_mono _ name n h,
   fun h => h, fun h => recordDrop_nodup _ name h⟩

theorem Globals.Extends.dropLayer (g : Globals) (name : String) :
    Globals.Extends g { g with removedLayersMap := recordDrop g.removedLayersMap name } :=
  ⟨rfl, rfl, rfl, rfl, rfl, fun n h => recordDrop_mono _ name n h, fun _ h => h,
   fun h => recordDrop_nodup _ name h, fun h => h⟩

theorem containsAttr_congr (re : RegexpEngine) {g g1 : Globals}
    (h : Globals.Extends g g1) (name : String) :
    containsAttr re g1 name = containsAttr re g name := by
  unfold containsAttr
  rw [h.keepAttributes, h.attributes]

theorem containsSourceLayer_congr (re : RegexpEngine) {g g1 : Globals}
    (h : Globals.Extends g g1) (name : String) :
    containsSourceLayer re g1 name = containsSourceLayer re g name := by
  unfold containsSourceLayer
  rw [h.keepLayers, h.sourceLayers]

theorem keepAttr_congr (re : RegexpEngine) {g g1 : Globals}
    (h : Globals.Extends g g1) : keepAttr re g1 = keepAttr re g := by
  funext name
  simp [keepAttr, containsAttr_congr re h]

theorem keepLayer_congr (re : RegexpEngine) {g g1 : Globals}
    (h : Globals.Extends g g1) : keepLayer re g1 = keepLayer re g := by
  funext name
  simp [keepLayer, containsSourceLayer_congr re h]

theorem containsAttr_returns (re : RegexpEngine) (g : Globals)
    (h : overrideOk re g.keepAttributes) (name : String) :
    ∃ b, containsAttr re g name = .ok b := by
  unfold containsAttr
  by_cases h1 : strings.HasPrefix name "name" = true
  · exact ⟨true, by simp [h1]⟩
  by_cases h2 : strings.HasPrefix name "ref" = true
  · exact ⟨true, by simp [h1, h2]⟩
  by_cases h3 : g.keepAttributes = ""
  · exact ⟨rangeContains g.attributes name, by simp [h1, h2, h3]⟩
  · rcases (overrideOk_iff _ _).mp h with h | ⟨m, hm⟩
    · exact absurd h h3
    · rw [if_neg h1, if_neg h2, if_pos h3, matchString_of_compiles re _ _ m hm]
      by_cases h4 : m name = true
      · exact ⟨true, by simp [h4]⟩
      · have h5 : m name = false := by simpa using h4
        exact ⟨rangeContains g.attributes name, by simp [h5]⟩

theorem containsSourceLayer_returns (re : RegexpEngine) (g : Globals)
    (h : overrideOk re g.keepLayers) (name : String) :
    ∃ b, containsSourceLayer re g name = .ok b := by
  unfold containsSourceLayer
  by_cases h3 : g.keepLayers = ""
  · exact ⟨rangeContains g.sourceLayers name, by simp [h3]⟩
  · rcases (overrideOk_iff _ _).mp h with h | ⟨m, hm⟩
    · exact absurd h h3
    · rw [if_pos h3, matchString_of_compiles re _ _ m hm]
      by_cases h4 : m name = true
      · exact ⟨true, by simp [h4]⟩
      · have h5 : m name = false := by simpa using h4
        exact ⟨rangeContains g.sourceLayers name, by simp [h5]⟩

/-! ## The loops of the tile rewriter -/

theorem keptProperties_cons_of_keep {V : Type} (re : RegexpEngine) (g : Globals)
    (k : String) (v : V) (rest : GoMap V) (h : containsAttr re g k = .ok true) :
    keptProperties re g ((k, v) :: rest) = (k, v) :: keptProperties re g rest := by
  simp [keptProperties, keepAttr, passes, h]

theorem keptProperties_cons_of_drop {V : Type} (re : RegexpEngine) (g : Globals)
    (k : String) (v : V) (rest : GoMap V) (h : containsAttr re g k = .ok false) :
    keptProperties re g ((k, v) :: rest) = keptProperties re g rest := by
  simp [keptProperties, keepAttr, passes, h]

theorem processProperties_ok {V : Type} (re : RegexpEngine) :
    ∀ (props : List (String × V)) (acc : GoMap V) (g : Globals) (p : GoMap V)
      (g1 : Globals), processProperties re props acc g = .ok (p, g1) →
      Globals.Extends g g1 ∧
      ((acc.keys ++ GoMap.keys props).Nodup → p = acc ++ keptProperties re g props) ∧
      (∀ kv ∈ props, containsAttr re g kv.1 = .ok false →
        g1.removedAttributesMap.getBool kv.1 = true) := by
  intro props
  induction props with
  | nil =>
    intro acc g p g1 h
    simp only [processProperties, Except.ok.injEq, Prod.mk.injEq] at h
    obtain ⟨rfl, rfl⟩ := h
    exact ⟨Globals.Extends.refl _, fun _ => by simp [keptProperties], by simp⟩
  | cons kv rest ih =>
    obtain ⟨k, v⟩ := kv
    intro acc g p g1 h
    unfold processProperties at h
    cases hc : containsAttr re g k with
    | error e => simp [hc] at h
    | ok b =>
      cases b with
      | false =>
        simp only [hc] at h
        have hext := Globals.Extends.dropAttr g k
        obtain ⟨h1, h2, h3⟩ := ih acc _ p g1 h
        refine ⟨hext.trans h1, ?_, ?_⟩
        · intro hnd
          rw [keptProperties_cons_of_drop re g k v rest hc]
          have hnd2 : (acc.keys ++ GoMap.keys rest).Nodup := by
            simp only [GoMap.keys, List.map_cons] at hnd ⊢
            exact hnd.sublist
              (List.Sublist.append (List.Sublist.refl _) (List.sublist_cons_self _ _))
          rw [h2 hnd2]
          simp only [keptProperties, keepAttr_congr re hext]
        · intro kv hkv hrej
          rcases List.mem_cons.mp hkv with rfl | hmem
          · exact h1.attrsMono _ (recordDrop_getBool _ _)
          · exact h3 kv hmem (by rw [containsAttr_congr re hext]; exact hrej)
      | true =>
        simp only [hc] at h
        obtain ⟨h1, h2, h3⟩ := ih _ g p g1 h
        refine ⟨h1, ?_, ?_⟩
        · intro hnd
          rw [keptProperties_cons_of_keep re g k v rest hc]
          simp only [GoMap.keys, List.map_cons] at hnd
          have hk : k ∉ GoMap.keys acc := by
            intro hin
            have := (List.nodup_append.mp hnd).2.2
            exact this hin (List.mem_cons_self _ _)
          rw [GoMap.set_of_not_mem acc k v hk] at h2
          have hnd2 : (GoMap.keys (acc ++ [(k, v)]) ++ GoMap.keys rest).Nodup := by
            simpa [GoMap.keys, List.append_assoc] using hnd
          rw [h2 hnd2]
          simp
        · intro kv hkv hrej
          rcases List.mem_cons.mp hkv with rfl | hmem
          · rw [hc] at hrej
            cases hrej
          · exact h3 kv hmem hrej

theorem processProperties_returns {V : Type} (re : RegexpEngine) :
    ∀ (props : List (String × V)) (acc : GoMap V) (g : Globals),
      (∀ name, ∃ b, containsAttr re g name = .ok b) →
      ∃ p g1, processProperties re props acc g = .ok (p, g1) := by
  intro props
  induction props with
  | nil =>
    intro acc g _
    exact ⟨acc, g, rfl⟩
  | cons kv rest ih =>
    obtain ⟨k, v⟩ := kv
    intro acc g hret
    obtain ⟨b, hb⟩ := hret k
    unfold processProperties
    cases b with
    | false =>
      simp only [hb]
      apply ih
      intro name
      rw [containsAttr_congr re (Globals.Extends.dropAttr g k)]
      exact hret name
    | true =>
      simp only [hb]
      exact ih _ g hret

theorem keptFeature_congr {G V : Type} (re : RegexpEngine) (round : G → G)
    {g g1 : Globals} (h : Globals.Extends g g1) :
    keptFeature re round g1 = (keptFeature re round g : geojson.Feature G V → _) := by
  funext f
  simp only [keptFeature, keptProperties, keepAttr_congr re h]

theorem keptLayers_congr {G V : Type} (re : RegexpEngine) (round : G → G)
    {g g1 : Globals} (h : Globals.Extends g g1) (layers : List (mvt.Layer G V)) :
    keptLayers re round g1 layers = keptLayers re round g layers := by
  have e : (keptLayer re round g1 : mvt.Layer G V → _) = keptLayer re round g := by
    funext l
    simp only [keptLayer, keptFeature_congr re round h]
  simp only [keptLayers, e, keepLayer_congr re h]

theorem processFeaturesLoop_ok {G V : Type} (re : RegexpEngine) (round : G → G) :
    ∀ (features acc : List (geojson.Feature G V)) (g : Globals)
      (out : List (geojson.Feature G V)) (g1 : Globals),
      processFeaturesLoop re round features acc g = .ok (out, g1) →
      Globals.Extends g g1 ∧
      ((∀ f ∈ features, f.Properties.keys.Nodup) →
        out = acc ++ features.map (keptFeature re round g)) ∧
      (∀ f ∈ features, ∀ kv ∈ f.Properties, containsAttr re g kv.1 = .ok false →
        g1.removedAttributesMap.getBool kv.1 = true) := by
  intro features
  induction features with
  | nil =>
    intro acc g out g1 h
    simp only [processFeaturesLoop, Except.ok.injEq, Prod.mk.injEq] at h
    obtain ⟨rfl, rfl⟩ := h
    exact ⟨Globals.Extends.refl _, fun _ => by simp, by simp⟩
  | cons feature rest ih =>
    intro acc g out g1 h
    unfold processFeaturesLoop at h
    cases hp : processProperties re feature.Properties [] g with
    | error e => simp [hp] at h
    | ok r =>
      obtain ⟨props, g2⟩ := r
      simp only [hp] at h
      obtain ⟨e1, e2, e3⟩ := processProperties_ok re _ _ _ _ _ hp
      obtain ⟨h1, h2, h3⟩ := ih _ g2 out g1 h
      refine ⟨e1.trans h1, ?_, ?_⟩
      · intro hnd
        have hrest : ∀ f ∈ rest, f.Properties.keys.Nodup :=
          fun f hf => hnd f (List.mem_cons_of_mem _ hf)
        have hhead : ([] ++ GoMap.keys feature.Properties).Nodup := by
          simpa using hnd feature (List.mem_cons_self _ _)
        rw [h2 hrest, e2 hhead, keptFeature_congr re round e1]
        simp [keptFeature]
      · intro f hf kv hkv hrej
        rcases List.mem_cons.mp hf with rfl | hmem
        · exact h1.attrsMono _ (e3 kv hkv hrej)
        · exact h3 f hmem kv hkv (by rw [containsAttr_congr re e1]; exact hrej)

theorem processFeaturesLoop_returns {G V : Type} (re : RegexpEngine) (round : G → G) :
    ∀ (features acc : List (geojson.Feature G V)) (g : Globals),
      (∀ name, ∃ b, containsAttr re g name = .ok b) →
      ∃ out g1, processFeaturesLoop re round features acc g = .ok (out, g1) := by
  intro features
  induction features with
  | nil =>
    intro acc g _
    exact ⟨acc, g, rfl⟩
  | cons feature rest ih =>
    intro acc g hret
    obtain ⟨props, g2, hp⟩ := processProperties_returns re feature.Properties [] g hret
    obtain ⟨e1, _, _⟩ := processProperties_ok re _ _ _ _ _ hp
    unfold processFeaturesLoop
    simp only [hp]
    apply ih
    intro name
    rw [containsAttr_congr re e1]
    exact hret name

theorem processFeatures_ok {G V : Type} (re : RegexpEngine) (round : G → G)
    (g : Globals) (layer newLayer : mvt.Layer G V) (g1 : Globals)
    (h : processFeatures re round g layer = .ok (newLayer, g1)) :
    Globals.Extends g g1 ∧
    ((∀ f ∈ layer.Features, f.Properties.keys.Nodup) →
      newLayer = keptLayer re round g layer) ∧
    (∀ f ∈ layer.Features, ∀ kv ∈ f.Properties, containsAttr re g kv.1 = .ok false →
      g1.removedAttributesMap.getBool kv.1 = true) := by
  unfold processFeatures at h
  cases hp : processFeaturesLoop re round layer.Features [] g with
  | error e => simp [hp] at h
  | ok r =>
    obtain ⟨features, g2⟩ := r
    simp only [hp, Except.ok.injEq, Prod.mk.injEq] at h
    obtain ⟨rfl, rfl⟩ := h
    obtain ⟨e1, e2, e3⟩ := processFeaturesLoop_ok re round _ _ _ _ _ hp
    refine ⟨e1, ?_, e3⟩
    intro hnd
    rw [e2 hnd]
    simp [keptLayer]

theorem processFeatures_returns {G V : Type} (re : RegexpEngine) (round : G → G)
    (g : Globals) (layer : mvt.Layer G V)
    (hret : ∀ name, ∃ b, containsAttr re g name = .ok b) :
    ∃ newLayer g1, processFeatures re round g layer = .ok (newLayer, g1) := by
  obtain ⟨out, g1, hp⟩ := processFeaturesLoop_returns re round layer.Features [] g hret
  exact ⟨{ Name := layer.Name, Features := out }, g1, by simp [processFeatures, hp]⟩

theorem keptLayers_cons_of_keep {G V : Type} (re : RegexpEngine) (round : G → G)
    (g : Globals) (layer : mvt.Layer G V) (rest : List (mvt.Layer G V))
    (h : containsSourceLayer re g layer.Name = .ok true) :
    keptLayers re round g (layer :: rest)
      = keptLayer re round g layer :: keptLayers re round g rest := by
  simp [keptLayers, keepLayer, passes, h]

theorem keptLayers_cons_of_drop {G V : Type} (re : RegexpEngine) (round : G → G)
    (g : Globals) (layer : mvt.Layer G V) (rest : List (mvt.Layer G V))
    (h : containsSourceLayer re g layer.Name = .ok false) :
    keptLayers re round g (layer :: rest) = keptLayers re round g rest := by
  simp [keptLayers, keepLayer, passes, h]

theorem layerLoop_ok {G V : Type} (re : RegexpEngine) (round : G → G) :
    ∀ (layers acc : List (mvt.Layer G V)) (g : Globals)
      (out : List (mvt.Layer G V)) (g1 : Globals),
      layerLoop re round layers acc g = .ok (out, g1) →
      Globals.Extends g g1 ∧
      ((∀ l ∈ layers, ∀ f ∈ l.Features, f.Properties.keys.Nodup) →
        out = acc ++ keptLayers re round g layers) ∧
      (∀ l ∈ layers,
        (containsSourceLayer re g l.Name = .ok false →
          g1.removedLayersMap.getBool l.Name = true) ∧
        (containsSourceLayer re g l.Name = .ok true →
          ∀ f ∈ l.Features, ∀ kv ∈ f.Properties, containsAttr re g kv.1 = .ok false →
            g1.removedAttributesMap.getBool kv.1 = true)) := by
  intro layers
  induction layers with
  | nil =>
    intro acc g out g1 h
    simp only [layerLoop, Except.ok.injEq, Prod.mk.injEq] at h
    obtain ⟨rfl, rfl⟩ := h
    exact ⟨Globals.Extends.refl _, fun _ => by simp [keptLayers], by simp⟩
  | cons layer rest ih =>
    intro acc g out g1 h
    unfold layerLoop at h
    cases hc : containsSourceLayer re g layer.Name with
    | error e => simp [hc] at h
    | ok b =>
      cases b with
      | false =>
        simp only [hc] at h
        have hext := Globals.Extends.dropLayer g layer.Name
        obtain ⟨h1, h2, h3⟩ := ih acc _ out g1 h
        refine ⟨hext.trans h1, ?_, ?_⟩
        · intro hnd
          rw [keptLayers_cons_of_drop re round g layer rest hc,
            h2 (fun l hl => hnd l (List.mem_cons_of_mem _ hl)),
            keptLayers_congr re round hext]
        · intro l hl
          rcases List.mem_cons.mp hl with rfl | hmem
          · refine ⟨fun _ => h1.layersMono _ (recordDrop_getBool _ _), ?_⟩
            intro hk
            rw [hc] at hk
            cases hk
          · have := h3 l hmem
            rw [containsSourceLayer_congr re hext] at this
            refine ⟨this.1, ?_⟩
            intro hk f hf kv hkv hrej
            exact this.2 hk f hf kv hkv (by rw [containsAttr_congr re hext]; exact hrej)
      | true =>
        simp only [hc] at h
        cases hp : processFeatures re round g layer with
        | error e => simp [hp] at h
        | ok r =>
          obtain ⟨newLayer, g2⟩ := r
          simp only [hp] at h
          obtain ⟨e1, e2, e3⟩ := processFeatures_ok re round g layer newLayer g2 hp
          obtain ⟨h1, h2, h3⟩ := ih _ g2 out g1 h
          refine ⟨e1.trans h1, ?_, ?_⟩
          · intro hnd
            rw [keptLayers_cons_of_keep re round g layer rest hc,
              h2 (fun l hl => hnd l (List.mem_cons_of_mem _ hl)),
              e2 (hnd layer (List.mem_cons_self _ _)), keptLayers_congr re round e1]
            simp
          · intro l hl
            rcases List.mem_cons.mp hl with rfl | hmem
            · refine ⟨?_, fun _ f hf kv hkv hrej => h1.attrsMono _ (e3 f hf kv hkv hrej)⟩
              intro hk
              rw [hc] at hk
              cases hk
            · have := h3 l hmem
              rw [containsSourceLayer_congr re e1] at this
              refine ⟨this.1, ?_⟩
              intro hk f hf kv hkv hrej
              exact this.2 hk f hf kv hkv (by rw [containsAttr_congr re e1]; exact hrej)

theorem layerLoop_returns {G V : Type} (re : RegexpEngine) (round : G → G) :
    ∀ (layers acc : List (mvt.Layer G V)) (g : Globals),
      (∀ name, ∃ b, containsSourceLayer re g name = .ok b) →
      (∀ name, ∃ b, containsAttr re g name = .ok b) →
      ∃ out g1, layerLoop re round layers acc g = .ok (out, g1) := by
  intro layers
  induction layers with
  | nil =>
    intro acc g _ _
    exact ⟨acc, g, rfl⟩
  | cons layer rest ih =>
    intro acc g hretL hretA
    obtain ⟨b, hb⟩ := hretL layer.Name
    unfold layerLoop
    cases b with
    | false =>
      simp only [hb]
      have hext := Globals.Extends.dropLayer g layer.Name
      apply ih
      · intro name
        rw [containsSourceLayer_congr re hext]
        exact hretL name
      · intro name
        rw [containsAttr_congr re hext]
        exact hretA name
    | true =>
      simp only [hb]
      obtain ⟨newLayer, g2, hp⟩ := processFeatures_returns re round g layer hretA
      obtain ⟨e1, _, _⟩ := processFeatures_ok re round g layer newLayer g2 hp
      simp only [hp]
      apply ih
      · intro name
        rw [containsSourceLayer_congr re e1]
        exact hretL name
      · intro name
        rw [containsAttr_congr re e1]
        exact hretA name

/-- C5. For a decoded tile (property maps with pairwise distinct keys), the layer loop
with `processFeatures` produces exactly the layers whose name passes
`containsSourceLayer`, in order and under their names, each with all its features in
order, each feature with exactly the properties whose key passes `containsAttr`,
values unchanged: whenever the loop completes this is its output, and it completes
when the overrides are unset or well-formed.  When every layer name and property key
is retained, the output has the layers, features and properties of the input. -/
theorem layerLoop_filters {G V : Type} (re : RegexpEngine) (round : G → G) (g : Globals)
    (layers : List (mvt.Layer G V))
    (hmap : ∀ l ∈ layers, ∀ f ∈ l.Features, f.Properties.keys.Nodup) :
    (∀ out g1, layerLoop re round layers [] g = .ok (out, g1) →
      out = keptLayers re round g layers) ∧
    (overrideOk re g.keepLayers → overrideOk re g.keepAttributes →
      ∃ g1, layerLoop re round layers [] g = .ok (keptLayers re round g layers, g1)) ∧
    keptLayers re round g layers =
      (layers.filter (fun l => keepLayer re g l.Name)).map (fun l =>
        { Name := l.Name,
          Features := l.Features.map (fun f =>
            { Geometry := round f.Geometry,
              Properties := f.Properties.filter (fun kv => keepAttr re g kv.1) }) }) ∧
    ((∀ l ∈ layers, keepLayer re g l.Name = true ∧
        ∀ f ∈ l.Features, ∀ kv ∈ f.Properties, keepAttr re g kv.1 = true) →
      keptLayers re round g layers =
        layers.map (fun l =>
          { Name := l.Name,
            Features := l.Features.map (fun f =>
              { Geometry := round f.Geometry, Properties := f.Properties }) })) := by
  have partialCorrect : ∀ out g1, layerLoop re round layers [] g = .ok (out, g1) →
      out = keptLayers re round g layers := by
    intro out g1 h
    have := (layerLoop_ok re round layers [] g out g1 h).2.1 hmap
    simpa using this
  refine ⟨partialCorrect, ?_, rfl, ?_⟩
  · intro hL hA
    obtain ⟨out, g1, h⟩ := layerLoop_returns re round layers [] g
      (containsSourceLayer_returns re g hL) (containsAttr_returns re g hA)
    refine ⟨g1, ?_⟩
    rw [h, partialCorrect out g1 h]
  · intro hall
    unfold keptLayers
    have hf : layers.filter (fun l => keepLayer re g l.Name) = layers :=
      List.filter_eq_self.mpr (fun l hl => (hall l hl).1)
    rw [hf]
    apply List.map_congr_left
    intro l hl
    simp only [keptLayer, mvt.Layer.mk.injEq, true_and]
    apply List.map_congr_left
    intro f hfm
    simp only [keptFeature, keptProperties, geojson.Feature.mk.injEq, true_and]
    exact List.filter_eq_self.mpr (fun kv hkv => (hall l hl).2 f hfm kv hkv)

/-- Instance of C5: the end-to-end scenario keeps `roads` with `class` and `name`
and drops `oneway` and the layer `water`. -/
theorem layerLoop_filters_witness :
    (∀ l ∈ scenarioLayers, ∀ f ∈ l.Features, f.Properties.keys.Nodup) ∧
    (∃ g1, layerLoop sampleRegexp id scenarioLayers [] scenarioGlobals
      = .ok (keptLayers sampleRegexp id scenarioGlobals scenarioLayers, g1)) ∧
    keptLayers sampleRegexp id scenarioGlobals scenarioLayers =
      [{ Name := "roads",
         Features := [{ Geometry := 7,
                        Properties := [("class", "motorway"), ("name", "A1")] }] }] :=
  ⟨by simp [scenarioLayers, GoMap.keys],
   (layerLoop_filters sampleRegexp id scenarioGlobals scenarioLayers
      (by simp [scenarioLayers, GoMap.keys])).2.1 (Or.inl rfl) (Or.inl rfl),
   by decide⟩

/-! ## The metadata rewriter -/

theorem GoMap.delete_eq_filter {V : Type} (m : GoMap V) (k : String) :
    m.delete k = m.filter (fun kv => decide (kv.1 ≠ k)) := by
  induction m with
  | nil => rfl
  | cons kv rest ih =>
    obtain ⟨k1, v1⟩ := kv
    by_cases h : k1 = k
    · simp [GoMap.delete, h, ih]
    · simp [GoMap.delete, h, ih]

theorem filterFields_ok (re : RegexpEngine) (g : Globals) :
    ∀ (ks : List String) (fields out : GoMap String),
      filterFields re g ks fields = .ok out →
      out = fields.filter (fun kv => decide (kv.1 ∉ ks) || keepAttr re g kv.1) := by
  intro ks
  induction ks with
  | nil =>
    intro fields out h
    simp only [filterFields, Except.ok.injEq] at h
    subst h
    simp
  | cons k rest ih =>
    intro fields out h
    unfold filterFields at h
    cases hc : containsAttr re g k with
    | error e => simp [hc] at h
    | ok b =>
      have hk : keepAttr re g k = b := by
        cases b <;> simp [keepAttr, passes, hc]
      cases b with
      | false =>
        simp only [hc] at h
        rw [ih _ out h, GoMap.delete_eq_filter, List.filter_filter]
        apply List.filter_congr
        intro kv _
        by_cases e : kv.1 = k
        · simp [e, hk]
        · simp [e]
      | true =>
        simp only [hc] at h
        rw [ih _ out h]
        apply List.filter_congr
        intro kv _
        by_cases e : kv.1 = k
        · simp [e, hk]
        · simp [e]

theorem filterFields_keys_ok (re : RegexpEngine) (g : Globals) (fields out : GoMap String)
    (h : filterFields re g fields.keys fields = .ok out) :
    out = fields.filter (fun kv => keepAttr re g kv.1) := by
  rw [filterFields_ok re g _ _ _ h]
  apply List.filter_congr
  intro kv hkv
  have : kv.1 ∈ GoMap.keys fields := List.mem_map_of_mem Prod.fst hkv
  simp [this]

theorem filterFields_returns (re : RegexpEngine) (g : Globals)
    (hret : ∀ name, ∃ b, containsAttr re g name = .ok b) :
    ∀ (ks : List String) (fields : GoMap String),
      ∃ out, filterFields re g ks fields = .ok out := by
  intro ks
  induction ks with
  | nil =>
    intro fields
    exact ⟨fields, rfl⟩
  | cons k rest ih =>
    intro fields
    obtain ⟨b, hb⟩ := hret k
    unfold filterFields
    cases b with
    | false =>
      simp only [hb]
      exact ih _
    | true =>
      simp only [hb]
      exact ih _

theorem vectorLayersLoop_ok (re : RegexpEngine) (g : Globals) :
    ∀ (layers acc out : List VectorLayer),
      vectorLayersLoop re g layers acc = .ok out →
      out = acc ++ keptVectorLayers re g layers := by
  intro layers
  induction layers with
  | nil =>
    intro acc out h
    simp only [vectorLayersLoop, Except.ok.injEq] at h
    subst h
    simp [keptVectorLayers]
  | cons layer rest ih =>
    intro acc out h
    unfold vectorLayersLoop at h
    cases hc : containsSourceLayer re g layer.Id with
    | error e => simp [hc] at h
    | ok b =>
      cases b with
      | false =>
        simp only [hc] at h
        rw [ih _ out h]
        simp [keptVectorLayers, keepLayer, passes, hc]
      | true =>
        simp only [hc] at h
        cases hf : filterFields re g layer.Fields.keys layer.Fields with
        | error e => simp [hf] at h
        | ok fields =>
          simp only [hf] at h
          rw [ih _ out h, filterFields_keys_ok re g _ _ hf]
          simp [keptVectorLayers, keepLayer, passes, hc]

theorem vectorLayersLoop_returns (re : RegexpEngine) (g : Globals)
    (hretL : ∀ name, ∃ b, containsSourceLayer re g name = .ok b)
    (hretA : ∀ name, ∃ b, containsAttr re g name = .ok b) :
    ∀ (layers acc : List VectorLayer), ∃ out, vectorLayersLoop re g layers acc = .ok out := by
  intro layers
  induction layers with
  | nil =>
    intro acc
    exact ⟨acc, rfl⟩
  | cons layer rest ih =>
    intro acc
    obtain ⟨b, hb⟩ := hretL layer.Id
    unfold vectorLayersLoop
    cases b with
    | false =>
      simp only [hb]
      exact ih _
    | true =>
      simp only [hb]
      obtain ⟨fields, hf⟩ := filterFields_returns re g hretA layer.Fields.keys layer.Fields
      simp only [hf]
      exact ih _

/-- C6. For a parsed schema, the metadata rewriter produces exactly the listed layers
whose id passes `containsSourceLayer`, in order, each with id, minzoom and maxzoom
unchanged and its field map restricted to the names passing `containsAttr`: whenever
it completes this is its output, and it completes when the overrides are unset or
well-formed.  A layer that is kept stays in the output whatever is left of its
fields. -/
theorem rewriteMetaJson_filters (re : RegexpEngine) (g : Globals) (metaJson : MetaJson) :
    (∀ out, rewriteMetaJson re g metaJson = .ok out →
      out.VectorLayers = keptVectorLayers re g metaJson.VectorLayers) ∧
    (overrideOk re g.keepLayers → overrideOk re g.keepAttributes →
      rewriteMetaJson re g metaJson
        = .ok { VectorLayers := keptVectorLayers re g metaJson.VectorLayers }) ∧
    keptVectorLayers re g metaJson.VectorLayers =
      (metaJson.VectorLayers.filter (fun l => keepLayer re g l.Id)).map (fun l =>
        { Fields := l.Fields.filter (fun kv => keepAttr re g kv.1), Id := l.Id,
          Minzoom := l.Minzoom, Maxzoom := l.Maxzoom }) ∧
    (∀ l ∈ metaJson.VectorLayers, keepLayer re g l.Id = true →
      { Fields := l.Fields.filter (fun kv => keepAttr re g kv.1), Id := l.Id,
        Minzoom := l.Minzoom, Maxzoom := l.Maxzoom }
        ∈ keptVectorLayers re g metaJson.VectorLayers) := by
  have partialCorrect : ∀ out, rewriteMetaJson re g metaJson = .ok out →
      out.VectorLayers = keptVectorLayers re g metaJson.VectorLayers := by
    intro out h
    unfold rewriteMetaJson at h
    cases hv : vectorLayersLoop re g metaJson.VectorLayers [] with
    | error e => simp [hv] at h
    | ok layers =>
      simp only [hv, Except.ok.injEq] at h
      subst h
      simpa using vectorLayersLoop_ok re g _ _ _ hv
  refine ⟨partialCorrect, ?_, rfl, ?_⟩
  · intro hL hA
    obtain ⟨layers, hv⟩ := vectorLayersLoop_returns re g
      (containsSourceLayer_returns re g hL) (containsAttr_returns re g hA)
      metaJson.VectorLayers []
    have h : rewriteMetaJson re g metaJson = .ok { VectorLayers := layers } := by
      simp [rewriteMetaJson, hv]
    rw [h, ← partialCorrect _ h]
  · intro l hl hk
    unfold keptVectorLayers
    exact List.mem_map.mpr ⟨l, List.mem_filter.mpr ⟨hl, by simpa using hk⟩, rfl⟩

/-- Instance of C6: with the style of the end-to-end scenario and no override, the
schema keeps `roads` with the field `class` only. -/
theorem rewriteMetaJson_filters_witness :
    (overrideOk sampleRegexp scenarioGlobals.keepLayers ∧
      overrideOk sampleRegexp scenarioGlobals.keepAttributes) ∧
    rewriteMetaJson sampleRegexp scenarioGlobals scenarioMetaJson
      = .ok { VectorLayers :=
          [{ Fields := [("class", "String")], Id := "roads", Minzoom := 0, Maxzoom := 14 }] } :=
  ⟨⟨Or.inl rfl, Or.inl rfl⟩,
   (rewriteMetaJson_filters sampleRegexp scenarioGlobals scenarioMetaJson).2.1
     (Or.inl rfl) (Or.inl rfl)⟩

/-! ## The tile codec -/

/-- C10, as stated, fails: with the flag unset the sample tile is decoded by the plain
decoder and written gzip-compressed, which no uncompressed encoding equals. -/
theorem processTile_compresses_with_flag_unset :
    scenarioGlobals.gzipped = false ∧
    ∃ row g1, processTile sampleRegexp sampleOrb scenarioGlobals scenarioTile = .ok (row, g1) ∧
      row.tile_data.compressed = true ∧
      ∀ layers, encodeByFlag sampleOrb scenarioGlobals.gzipped layers ≠ .ok row.tile_data := by
  refine ⟨rfl, _, _, rfl, rfl, ?_⟩
  intro layers h
  simp [encodeByFlag, scenarioGlobals, sampleOrb] at h

/-- C10, amended.  A tile row is written exactly when the decoder selected by the flag
(`mvt.UnmarshalGzipped` when it is set, `mvt.Unmarshal` otherwise) accepts the
payload, the layer loop completes, and `mvt.MarshalGzipped` encodes the clipped
layers; the row keeps its coordinates and its payload is that gzip-compressed
encoding, whatever the flag. -/
theorem processTile_codec {B G V : Type} (re : RegexpEngine) (orb : Orb B G V)
    (g : Globals) (i row : Tile B) (g1 : Globals) :
    processTile re orb g i = .ok (row, g1) ↔
      ∃ layers newLayers data,
        (if g.gzipped then orb.UnmarshalGzipped i.tile_data else orb.Unmarshal i.tile_data)
          = .ok layers ∧
        layerLoop re orb.Round layers [] g = .ok (newLayers, g1) ∧
        orb.MarshalGzipped (orb.Clip newLayers) = .ok data ∧
        row = { zoom_level := i.zoom_level, tile_column := i.tile_column,
                tile_row := i.tile_row, tile_data := data } := by
  unfold processTile
  constructor
  · intro h
    cases hd : (if g.gzipped then orb.UnmarshalGzipped i.tile_data
        else orb.Unmarshal i.tile_data) with
    | error e => simp [hd] at h
    | ok layers =>
      simp only [hd] at h
      cases hl : layerLoop re orb.Round layers [] g with
      | error e => simp [hl] at h
      | ok r =>
        obtain ⟨newLayers, g2⟩ := r
        simp only [hl] at h
        cases hm : orb.MarshalGzipped (orb.Clip newLayers) with
        | error e => simp [hm] at h
        | ok data =>
          simp only [hm, Except.ok.injEq, Prod.mk.injEq] at h
          obtain ⟨h1, h2⟩ := h
          subst h2
          exact ⟨layers, newLayers, data, rfl, hl, hm, h1.symm⟩
  · rintro ⟨layers, newLayers, data, hd, hl, hm, hrow⟩
    simp only [hd, hl, hm, hrow]

/-! ## The run -/

theorem DropsRecorded.mono {G V : Type} (re : RegexpEngine) {g g1 g2 : Globals}
    {layers : List (mvt.Layer G V)} (h : DropsRecorded re g g1 layers)
    (hext : Globals.Extends g1 g2) : DropsRecorded re g g2 layers := by
  intro l hl
  refine ⟨fun hr => hext.layersMono _ ((h l hl).1 hr), ?_⟩
  intro hk f hf kv hkv hrej
  exact hext.attrsMono _ ((h l hl).2 hk f hf kv hkv hrej)

theorem DropsRecorded.congr {G V : Type} (re : RegexpEngine) {g g0 g1 : Globals}
    {layers : List (mvt.Layer G V)} (h : DropsRecorded re g g1 layers)
    (hext : Globals.Extends g0 g) : DropsRecorded re g0 g1 layers := by
  intro l hl
  have := h l hl
  rw [containsSourceLayer_congr re hext] at this
  refine ⟨this.1, ?_⟩
  intro hk f hf kv hkv hrej
  exact this.2 hk f hf kv hkv (by rw [containsAttr_congr re hext]; exact hrej)

theorem processTile_ok {B G V : Type} (re : RegexpEngine) (orb : Orb B G V)
    (g : Globals) (i row : Tile B) (g1 : Globals)
    (h : processTile re orb g i = .ok (row, g1)) :
    ∃ layers newLayers, decodeTile orb g.gzipped i.tile_data = .ok layers ∧
      layerLoop re orb.Round layers [] g = .ok (newLayers, g1) := by
  unfold processTile at h
  unfold decodeTile
  cases hd : (if g.gzipped then orb.UnmarshalGzipped i.tile_data
      else orb.Unmarshal i.tile_data) with
  | error e => simp [hd] at h
  | ok layers =>
    simp only [hd] at h
    cases hl : layerLoop re orb.Round layers [] g with
    | error e => simp [hl] at h
    | ok r =>
      obtain ⟨newLayers, g2⟩ := r
      simp only [hl] at h
      cases hm : orb.MarshalGzipped (orb.Clip newLayers) with
      | error e => simp [hm] at h
      | ok data =>
        simp only [hm, Except.ok.injEq, Prod.mk.injEq] at h
        obtain ⟨_, h2⟩ := h
        subst h2
        exact ⟨layers, newLayers, rfl, hl⟩

theorem tilesLoop_ok {B G V : Type} (re : RegexpEngine) (orb : Orb B G V) :
    ∀ (tiles acc : List (Tile B)) (g : Globals) (out : List (Tile B)) (g1 : Globals),
      tilesLoop re orb tiles acc g = .ok (out, g1) →
      Globals.Extends g g1 ∧
      ∀ tile ∈ tiles, ∀ layers, decodeTile orb g.gzipped tile.tile_data = .ok layers →
        DropsRecorded re g g1 layers := by
  intro tiles
  induction tiles with
  | nil =>
    intro acc g out g1 h
    simp only [tilesLoop, Except.ok.injEq, Prod.mk.injEq] at h
    obtain ⟨_, rfl⟩ := h
    exact ⟨Globals.Extends.refl _, by simp⟩
  | cons i rest ih =>
    intro acc g out g1 h
    unfold tilesLoop at h
    cases hp : processTile re orb g i with
    | error e => simp [hp] at h
    | ok r =>
      obtain ⟨row, g2⟩ := r
      simp only [hp] at h
      obtain ⟨layers0, newLayers, hd, hl⟩ := processTile_ok re orb g i row g2 hp
      obtain ⟨e1, _, e3⟩ := layerLoop_ok re orb.Round layers0 [] g newLayers g2 hl
      obtain ⟨h1, h2⟩ := ih _ g2 out g1 h
      refine ⟨e1.trans h1, ?_⟩
      intro tile ht layers hdec
      rcases List.mem_cons.mp ht with rfl | hmem
      · rw [hd] at hdec
        cases hdec
        exact DropsRecorded.mono re e3 h1
      · rw [← e1.gzipped] at hdec
        exact DropsRecorded.congr re (h2 tile hmem layers hdec) e1

theorem collectStyle_flags (g : Globals) (styles : Style) :
    (collectStyle g styles).keepAttributes = g.keepAttributes ∧
    (collectStyle g styles).keepLayers = g.keepLayers ∧
    (collectStyle g styles).gzipped = g.gzipped := by
  unfold collectStyle
  simp only
  generalize styles.Layers = layers
  induction layers generalizing g with
  | nil => exact ⟨rfl, rfl, rfl⟩
  | cons layer rest ih =>
    simp only [List.foldl_cons]
    exact ih _

theorem count_keys_eq_one (m : GoMap Bool) (k : String) (hnd : m.keys.Nodup)
    (h : m.getBool k = true) : m.keys.count k = 1 :=
  List.count_eq_one_of_mem hnd (GoMap.mem_keys_of_getBool m k h)

theorem processTiles_ok {B G V : Type} (re : RegexpEngine) (orb : Orb B G V)
    (g : Globals) (style : List LayerDoc) (input out : Archive B) (gf : Globals)
    (hrun : ProcessTiles re orb g style input = .ok (out, gf)) :
    ∃ g2 tiles, g2.removedLayersMap = [] ∧ g2.removedAttributesMap = [] ∧
      g2.gzipped = g.gzipped ∧ tilesLoop re orb input.tiles [] g2 = .ok (tiles, gf) := by
  unfold ProcessTiles at hrun
  have hflags := collectStyle_flags g (unmarshalStyle style).1
  have key : ∀ styles : Style, (collectStyle g styles).gzipped = g.gzipped →
      (match metadataLoop re (collectStyle g styles) input.metadata [] with
        | .error e => (Except.error e : Except Failure (Archive B × Globals))
        | .ok metadata =>
          match tilesLoop re orb input.tiles []
              { collectStyle g styles with removedLayersMap := [], removedAttributesMap := [] } with
          | .error e => .error e
          | .ok (tiles, g3) => .ok ({ metadata := metadata, tiles := tiles }, g3))
        = .ok (out, gf) →
      ∃ g2 tiles, g2.removedLayersMap = [] ∧ g2.removedAttributesMap = [] ∧
        g2.gzipped = g.gzipped ∧ tilesLoop re orb input.tiles [] g2 = .ok (tiles, gf) := by
    intro styles hz h
    cases hm : metadataLoop re (collectStyle g styles) input.metadata [] with
    | error e => simp [hm] at h
    | ok metadata =>
      simp only [hm] at h
      cases ht : tilesLoop re orb input.tiles []
          { collectStyle g styles with removedLayersMap := [], removedAttributesMap := [] } with
      | error e => simp [ht] at h
      | ok r =>
        obtain ⟨tiles, g3⟩ := r
        simp only [ht, Except.ok.injEq, Prod.mk.injEq] at h
        obtain ⟨_, h2⟩ := h
        subst h2
        exact ⟨{ collectStyle g styles with removedLayersMap := [], removedAttributesMap := [] },
          tiles, rfl, rfl, hz, ht⟩
  rcases hs : unmarshalStyle style with ⟨styles, err⟩
  rw [hs] at hrun hflags
  cases err with
  | none => exact key styles hflags.2.2 hrun
  | some f =>
    cases f with
    | error msg => exact key styles hflags.2.2 hrun
    | fatal msg => exact key styles hflags.2.2 hrun
    | panic msg => simp at hrun

/-- C9, as stated, fails: in this run the metadata rewriter rejects the layer `water`
and the field `oneway` (both are gone from the output schema), no tile contains
them, and neither name is in a drop accumulator at the end of the run. -/
theorem metadata_rejections_not_recorded :
    ∃ out gf,
      ProcessTiles sampleRegexp sampleOrb initialGlobals scenarioStyle roadsOnlyArchive
        = .ok (out, gf) ∧
      containsSourceLayer sampleRegexp gf "water" = .ok false ∧
      containsAttr sampleRegexp gf "oneway" = .ok false ∧
      out.metadata =
        [{ name := "name", value := .raw "sample" },
         { name := "json",
           value := .schema { VectorLayers :=
             [{ Fields := [("class", "String")], Id := "roads",
                Minzoom := 0, Maxzoom := 14 }] } }] ∧
      gf.removedLayersMap.getBool "water" = false ∧
      gf.removedAttributesMap.getBool "oneway" = false ∧
      gf.removedLayersMap = [] ∧ gf.removedAttributesMap = [] :=
  ⟨_, _, rfl, rfl, rfl, rfl, rfl, rfl, rfl, rfl⟩

/-- C9, amended.  In a run that completes, every layer name the tile loop rejects and
every property key it rejects in a kept layer is in the corresponding drop
accumulator at the end, under exactly one key; recording a name a second time leaves
the accumulator unchanged.  The rejections of the metadata rewriter are not
recorded: the accumulators are created after the metadata pass, so a run without
tiles ends with both of them empty. -/
theorem tile_drops_recorded {B G V : Type} (re : RegexpEngine) (orb : Orb B G V)
    (g : Globals) (style : List LayerDoc) (input out : Archive B) (gf : Globals)
    (hrun : ProcessTiles re orb g style input = .ok (out, gf)) :
    (∀ tile ∈ input.tiles, ∀ layers,
      decodeTile orb g.gzipped tile.tile_data = .ok layers → ∀ l ∈ layers,
        (containsSourceLayer re gf l.Name = .ok false →
          gf.removedLayersMap.getBool l.Name = true ∧
          gf.removedLayersMap.keys.count l.Name = 1) ∧
        (containsSourceLayer re gf l.Name = .ok true →
          ∀ f ∈ l.Features, ∀ kv ∈ f.Properties, containsAttr re gf kv.1 = .ok false →
            gf.removedAttributesMap.getBool kv.1 = true ∧
            gf.removedAttributesMap.keys.count kv.1 = 1)) ∧
    (∀ (m : GoMap Bool) (name : String),
      recordDrop (recordDrop m name) name = recordDrop m name) ∧
    (input.tiles = [] → gf.removedLayersMap = [] ∧ gf.removedAttributesMap = []) := by
  obtain ⟨g2, tiles, hl, ha, hz, ht⟩ := processTiles_ok re orb g style input out gf hrun
  obtain ⟨hext, hrec⟩ := tilesLoop_ok re orb input.tiles [] g2 tiles gf ht
  have ndL : gf.removedLayersMap.keys.Nodup := hext.layersNodup (by simp [hl, GoMap.keys])
  have ndA : gf.removedAttributesMap.keys.Nodup :=
    hext.attrsNodup (by simp [ha, GoMap.keys])
  refine ⟨?_, recordDrop_idem, ?_⟩
  · intro tile htile layers hdec l hmem
    rw [← hz] at hdec
    have h := hrec tile htile layers hdec l hmem
    rw [← containsSourceLayer_congr re hext] at h
    constructor
    · intro hrej
      exact ⟨h.1 hrej, count_keys_eq_one _ _ ndL (h.1 hrej)⟩
    · intro hk f hf kv hkv hrej
      have hr := h.2 hk f hf kv hkv (by rw [← containsAttr_congr re hext]; exact hrej)
      exact ⟨hr, count_keys_eq_one _ _ ndA hr⟩
  · intro hempty
    rw [hempty] at ht
    simp only [tilesLoop, Except.ok.injEq, Prod.mk.injEq] at ht
    obtain ⟨_, rfl⟩ := ht
    exact ⟨hl, ha⟩

/-- Instance of C9: the end-to-end scenario ends with `water` among the dropped
layers, recorded once. -/
theorem tile_drops_recorded_witness :
    ProcessTiles sampleRegexp sampleOrb initialGlobals scenarioStyle scenarioArchive
      = .ok (scenarioOutput, scenarioFinalGlobals) ∧
    scenarioFinalGlobals.removedLayersMap.getBool "water" = true ∧
    scenarioFinalGlobals.removedLayersMap.keys.count "water" = 1 :=
  ⟨rfl,
   ((tile_drops_recorded sampleRegexp sampleOrb initialGlobals scenarioStyle scenarioArchive
      scenarioOutput scenarioFinalGlobals rfl).1 scenarioTile (by simp [scenarioArchive])
      scenarioLayers rfl
      { Name := "water", Features := [{ Geometry := 8, Properties := [("kind", "lake")] }] }
      (by simp [scenarioLayers])).1 rfl⟩

/-- C8, the code at the failing input: decoding the style returns the error of the
second layer's filter, and the run goes on with the layers decoded so far (`roads`,
and `water` without its filter); the third layer of the style is lost, so the tile's
`landuse` layer, which the style uses, is removed and the tile is written. -/
theorem processTiles_continues_after_style_error :
    (unmarshalStyle brokenStyle).2 = some (.error "unknown filter op: within") ∧
    ∃ out gf,
      ProcessTiles sampleRegexp sampleOrb initialGlobals brokenStyle landuseArchive
        = .ok (out, gf) ∧
      gf.sourceLayers = ["roads", "water"] ∧
      gf.attributes = ["class"] ∧
      out.tiles = [{ zoom_level := 0, tile_column := 0, tile_row := 0,
                     tile_data := { compressed := true, layers := [] } }] ∧
      gf.removedLayersMap = [("landuse", true)] :=
  ⟨rfl, _, _, rfl, rfl, rfl, rfl, rfl⟩

end TinyTiles
